import Mathlib

/-!
Verification of the core generator of `protoc-gen-twirp_typescript`
(`generator/client.go`): a shallow embedding of the schema walker, the
type mapper, the service builder and the marshal/unmarshal reachability
propagation, together with theorems checking the natural-language
specification against it.

Modelling conventions:
* Go strings are Lean `String`s; the byte-level operations of the source
  (`s[0:1]`, `s[1:]`, `strings.Split`, `strings.Trim`, ...) act on ASCII
  identifiers in every reachable use, so they are embedded at character
  granularity over `String.data`.
* Go's registry (`ctx.Models []*Model` plus the `modelLookup` map) is a
  `List Model`; pointer mutation of a model's flags becomes a name-keyed
  functional update (`setMarshal`/`setUnmarshal`).  Under the registry's
  name-uniqueness invariant this coincides with the pointer semantics.
* The recursion of `enableMarshal`/`enableUnmarshal` (which has no
  visited-set in the source) is embedded with an explicit fuel counter;
  `Res.outOfFuel` for every fuel value models non-termination.
* `log.Fatalf` aborts become `Res.err (PErr.unknownModel ..)`; the nil
  pointer dereference reachable in `ApplyMarshalFlags` (the unchecked
  `ctx.modelLookup[baseType]` on the marshal branch) becomes
  `Res.err PErr.nilDeref`.
-/

/-! ### String helpers (from `strings.*` uses in the source) -/

/-- `strings.Replace(s, ".", "", -1)` : drop every dot. -/
def removeDots (s : String) : String :=
  String.mk (s.data.filter (fun c => c ≠ '.'))

/-- `strings.TrimPrefix(s, p)` at character granularity. -/
def trimPrefixStr (s p : String) : String :=
  if p.data.isPrefixOf s.data then String.mk (s.data.drop p.data.length) else s

/-- `strings.TrimSuffix(s, suf)` at character granularity. -/
def trimSuffixStr (s suf : String) : String :=
  if suf.data.isSuffixOf s.data then String.mk (s.data.take (s.data.length - suf.data.length))
  else s

/-- Characters trimmed by `strings.Trim(s, "[]")`. -/
def isBracketChar (c : Char) : Bool := c = '[' || c = ']'

/-- `strings.Trim(s, "[]")` : remove leading and trailing `[`/`]` characters. -/
def trimBrackets (s : String) : String :=
  String.mk (((s.data.dropWhile isBracketChar).reverse.dropWhile isBracketChar).reverse)

/-- `strings.ToLower(s[0:1]) + s[1:]` : lowercase the first character.
(The source indexes `s[0:1]`, which panics on an empty string; every caller
applies it to a non-empty identifier, and theorems about it carry a
non-emptiness hypothesis.) -/
def lowerFirst (s : String) : String :=
  String.mk ((s.data.take 1).map Char.toLower ++ s.data.drop 1)

/-- `strings.Split(s, "_")` at character granularity (split on `'_'`,
keeping empty segments, `[[]]` for the empty string). -/
def splitU : List Char → List (List Char)
  | [] => [[]]
  | c :: cs =>
    match splitU cs with
    | [] => [[]]
    | p :: ps => if c = '_' then [] :: p :: ps else (c :: p) :: ps

/-- `strings.Split(s, ".")` at character granularity. -/
def splitDot : List Char → List (List Char)
  | [] => [[]]
  | c :: cs =>
    match splitDot cs with
    | [] => [[]]
    | p :: ps => if c = '.' then [] :: p :: ps else (c :: p) :: ps

/-- One segment of `camelCase`: segment `0` is `strings.ToLower(p)`, a later
segment is `strings.ToUpper(p[0:1]) + strings.ToLower(p[1:])`; indexing
`p[0:1]` on an empty later segment panics (`none`). -/
def camelPart (i : Nat) (p : List Char) : Option (List Char) :=
  if i = 0 then some (p.map Char.toLower)
  else match p with
    | [] => none
    | _ :: _ => some ((p.take 1).map Char.toUpper ++ (p.drop 1).map Char.toLower)

/-- The indexed loop of `camelCase` over the split segments. -/
def camelParts (i : Nat) : List (List Char) → Option (List (List Char))
  | [] => some []
  | p :: ps =>
    match camelPart i p, camelParts (i + 1) ps with
    | some q, some qs => some (q :: qs)
    | _, _ => none

/-- `camelCase` from the source: split on `_`, lowercase the first segment,
capitalize the rest, join.  `none` models the index-out-of-range panic on an
empty non-first segment. -/
def camelCase (s : String) : Option String :=
  (camelParts 0 (splitU s.data)).map (fun ps => String.mk ps.flatten)

/-! ### Schema descriptors (the protobuf descriptor inputs the source reads) -/

/-- `descriptor.FieldDescriptorProto_Type` (the members the source inspects,
plus the rest of the enum). -/
inductive FieldType where
  | TYPE_DOUBLE | TYPE_FLOAT | TYPE_INT64 | TYPE_UINT64 | TYPE_INT32
  | TYPE_FIXED64 | TYPE_FIXED32 | TYPE_BOOL | TYPE_STRING | TYPE_GROUP
  | TYPE_MESSAGE | TYPE_BYTES | TYPE_UINT32 | TYPE_ENUM
  | TYPE_SFIXED32 | TYPE_SFIXED64 | TYPE_SINT32 | TYPE_SINT64
  deriving DecidableEq, Repr

/-- `descriptor.FieldDescriptorProto_Label`. -/
inductive FieldLabel where
  | LABEL_OPTIONAL | LABEL_REQUIRED | LABEL_REPEATED
  deriving DecidableEq, Repr

/-- `descriptor.FieldDescriptorProto`, with the getters the source calls
(`GetName`, `GetType`, `GetTypeName`, `GetLabel`) as plain fields; proto
getters return `""` for an unset string, which the plain field carries. -/
structure FieldDescriptorProto where
  name : String
  type : FieldType
  typeName : String
  label : FieldLabel
  deriving DecidableEq, Repr

/-- `descriptor.DescriptorProto`; `mapEntry` models `m.Options.GetMapEntry()`
(nil-safe getter, `false` when absent). -/
inductive DescriptorProto where
  | mk (name : String) (field : List FieldDescriptorProto)
       (nestedType : List DescriptorProto) (mapEntry : Bool)

def DescriptorProto.name : DescriptorProto → String
  | .mk n _ _ _ => n

def DescriptorProto.field : DescriptorProto → List FieldDescriptorProto
  | .mk _ f _ _ => f

def DescriptorProto.nestedType : DescriptorProto → List DescriptorProto
  | .mk _ _ n _ => n

def DescriptorProto.mapEntry : DescriptorProto → Bool
  | .mk _ _ _ b => b

/-- `descriptor.MethodDescriptorProto` (`GetName`, `GetInputType`,
`GetOutputType`). -/
structure MethodDescriptorProto where
  name : String
  inputType : String
  outputType : String
  deriving DecidableEq, Repr

/-- `descriptor.ServiceDescriptorProto` (`GetName`, `GetMethod`). -/
structure ServiceDescriptorProto where
  name : String
  method : List MethodDescriptorProto
  deriving DecidableEq, Repr

/-! ### The generator's data model (`Model`, `ModelField`, ...) -/

/-- `ModelField` from the source.  `Typ` embeds the Go field `Type`
(a Lean keyword). -/
structure ModelField where
  Name : String
  Typ : String
  JSONName : String
  JSONType : String
  IsMessage : Bool
  IsRepeated : Bool
  MapType : Option String
  deriving DecidableEq, Repr

/-- `MapDetails` from the source. -/
structure MapDetails where
  Name : String
  KeyField : ModelField
  ValueField : ModelField
  deriving DecidableEq, Repr

/-- `Model` from the source. -/
structure Model where
  Name : String
  Primitive : Bool
  Fields : List ModelField
  Map : Option MapDetails
  CanMarshal : Bool
  CanUnmarshal : Bool
  deriving DecidableEq, Repr

/-- `ServiceMethod` from the source. -/
structure ServiceMethod where
  Name : String
  Path : String
  InputArg : String
  InputType : String
  OutputType : String
  deriving DecidableEq, Repr

/-- `Service` from the source. -/
structure Service where
  Name : String
  Package : String
  Methods : List ServiceMethod
  deriving DecidableEq, Repr

/-! ### Type mapper (`types`, `removePkg`, `isRepeated`, `protoToTSType`,
`mapType`, `newField`) -/

/-- `removePkg`: `strings.Replace(strings.TrimPrefix(s, "."+pkg+"."), ".", "", -1)`. -/
def removePkg (s pkg : String) : String :=
  removeDots (trimPrefixStr s ("." ++ pkg ++ "."))

/-- `types`: the `(tsType, jsonType)` switch.  The defaults are
`("string", "string")`; only the listed cases override them. -/
def types (f : FieldDescriptorProto) (pkg : String) : String × String :=
  match f.type with
  | .TYPE_DOUBLE | .TYPE_FIXED32 | .TYPE_FIXED64 | .TYPE_INT32 | .TYPE_INT64 =>
    ("number", "number")
  | .TYPE_STRING => ("string", "string")
  | .TYPE_BOOL => ("boolean", "boolean")
  | .TYPE_MESSAGE =>
    let name := f.typeName
    if name = ".google.protobuf.Timestamp" then ("Date", "string")
    else (removePkg name pkg, removePkg name pkg ++ "JSON")
  | _ => ("string", "string")

/-- `isRepeated`. -/
def isRepeated (f : FieldDescriptorProto) : Bool :=
  f.label = .LABEL_REPEATED

/-- `protoToTSType`: append `[]` to both types for a repeated field. -/
def protoToTSType (f : FieldDescriptorProto) (pkg : String) : String × String :=
  let (tsType, jsonType) := types f pkg
  if isRepeated f then (tsType ++ "[]", jsonType ++ "[]") else (tsType, jsonType)

/-- `mapType`: detect a map field via the sibling nested map-entry type and
render `Map<keyType,valType>`.  Go's `splits[len(splits)-1]` is the last
segment; the `key`/`value` scans keep the last matching field and leave the
zero value `""` when none matches. -/
def mapType (f : FieldDescriptorProto) (m : DescriptorProto) (pkg : String) :
    Option String :=
  let typeName := f.typeName
  if typeName = "" then none
  else
    let simpleName := String.mk ((splitDot typeName.data).getLastD [])
    match m.nestedType.find? (fun n => n.name == simpleName && n.mapEntry) with
    | some n =>
      let keyType :=
        ((n.field.filter (fun e => e.name == "key")).getLast?.map
          (fun e => (types e pkg).1)).getD ""
      let valType :=
        ((n.field.filter (fun e => e.name == "value")).getLast?.map
          (fun e => (types e pkg).1)).getD ""
      some ("Map<" ++ keyType ++ "," ++ valType ++ ">")
    | none => none

/-- `newField`.  `none` models the `camelCase` panic on a malformed name. -/
def newField (f : FieldDescriptorProto) (m : DescriptorProto) (pkg : String) :
    Option ModelField :=
  let (tsType, jsonType) := protoToTSType f pkg
  let jsonName := f.name
  (camelCase jsonName).map (fun name =>
    { Name := name
      Typ := tsType
      JSONName := jsonName
      JSONType := jsonType
      IsMessage := f.type = .TYPE_MESSAGE
      IsRepeated := isRepeated f
      MapType := mapType f m pkg })

/-! ### Schema walker (`addMessageType`) -/

/-- The field loop of `addMessageType`: build every `ModelField` via
`newField`, in declaration order. -/
def buildFields (m : DescriptorProto) (pkg : String) :
    List FieldDescriptorProto → Option (List ModelField)
  | [] => some []
  | f :: fs =>
    match newField f m pkg, buildFields m pkg fs with
    | some fl, some fls => some (fl :: fls)
    | _, _ => none

/-- The model construction of `addMessageType` (continued): name the model
`strings.Replace(prefix,".","",-1) + m.GetName()`, and for a map-entry type
attach `MapDetails` built from the (last) fields literally named `key` and
`value`.  The source registers the model and then sets `model.Map` through
the pointer before recursing; since the walker never reads `Map`, building
the finished model before insertion is equivalent.  `none` models the two
panics of this code: the `camelCase` index panic in `newField` and the nil
dereference of `*keyField`/`*valueField` when a map-entry type lacks a
`key` or `value` field. -/
def baseModel (m : DescriptorProto) (pre : String) (fields : List ModelField) : Model :=
  { Name := removeDots pre ++ m.name
    Primitive := false
    Fields := fields
    Map := none
    CanMarshal := false
    CanUnmarshal := false }

/-- Continuation of the model construction of `addMessageType`: for a
map-entry type, attach `MapDetails` from the (last) `key`- and
`value`-named field pairs; their absence is the nil dereference. -/
def mkModel (m : DescriptorProto) (pre pkg : String) : Option Model :=
  match buildFields m pkg m.field with
  | none => none
  | some fields =>
    if m.mapEntry then
      match ((m.field.zip fields).filter (fun p => p.1.name == "key")).getLast?,
            ((m.field.zip fields).filter (fun p => p.1.name == "value")).getLast? with
      | some k, some v =>
        some { baseModel m pre fields with
                Map := some { Name := trimSuffixStr (baseModel m pre fields).Name "Entry"
                              KeyField := k.2
                              ValueField := v.2 } }
      | _, _ => none
    else
      some (baseModel m pre fields)

mutual

/-- `addMessageType`: register the model (append — `ctx.AddModel`), then
recurse into every nested type, extending the namespace with `"." + m.GetName()`. -/
def addMessageType : DescriptorProto → String → String → List Model → Option (List Model)
  | m@(.mk nm _ nested _), pre, pkg, models =>
    match mkModel m pre pkg with
    | none => none
    | some model =>
      addMessageTypeList nested (pre ++ "." ++ nm) pkg (models ++ [model])

/-- The `for _, n := range m.GetNestedType()` loop of `addMessageType`. -/
def addMessageTypeList : List DescriptorProto → String → String → List Model → Option (List Model)
  | [], _, _, models => some models
  | n :: ns, pre, pkg, models =>
    match addMessageType n pre pkg models with
    | some ms => addMessageTypeList ns pre pkg ms
    | none => none

end

/-! ### Service builder (`CreateClientAPI` service loop) -/

/-- One iteration of the method loop in `CreateClientAPI`:
`methodPath := m.GetName()`, `methodName := ToLower(path[0:1]) + path[1:]`,
`in := removePkg(m.GetInputType(), pkg)`, `arg := ToLower(in[0:1]) + in[1:]`. -/
def buildMethod (pkg : String) (m : MethodDescriptorProto) : ServiceMethod :=
  let methodPath := m.name
  let methodName := lowerFirst methodPath
  let inp := removePkg m.inputType pkg
  let arg := lowerFirst inp
  { Name := methodName
    Path := methodPath
    InputArg := arg
    InputType := inp
    OutputType := removePkg m.outputType pkg }

/-- One iteration of the service loop in `CreateClientAPI`. -/
def buildService (pkg : String) (s : ServiceDescriptorProto) : Service :=
  { Name := s.name, Package := pkg, Methods := s.method.map (buildMethod pkg) }

/-! ### Emitter gates (from `apiTemplate`) -/

/-- The template emits the plain interface only under
`{{if not .Primitive}}{{if not .Map}}`. -/
def emitsPlainInterface (m : Model) : Bool :=
  !m.Primitive && m.Map.isNone

/-- A `...ToJSON` / `...MapToJSON` conversion function is emitted only under
`{{if not .Primitive}}...{{if .CanMarshal}}`. -/
def emitsMarshalFn (m : Model) : Bool :=
  !m.Primitive && m.CanMarshal

/-- A `JSONTo...` conversion function is emitted only under
`{{if not .Primitive}}...{{if .CanUnmarshal}}`. -/
def emitsUnmarshalFn (m : Model) : Bool :=
  !m.Primitive && m.CanUnmarshal

/-- The client class field `pathPrefix = "/twirp/{{.Package}}.{{.Name}}/"`. -/
def pathPrefixOf (svc : Service) : String :=
  "/twirp/" ++ svc.Package ++ "." ++ svc.Name ++ "/"

/-- The request target built by an emitted client method:
`resolve(this.hostname, this.pathPrefix + "{{.Path}}")` resolves
`pathPrefix + Path` against the configured hostname. -/
def requestPathOf (svc : Service) (sm : ServiceMethod) : String :=
  pathPrefixOf svc ++ sm.Path

/-! ### Marshal/unmarshal flag propagation (`ApplyMarshalFlags`,
`enableMarshal`, `enableUnmarshal`) -/

/-- Abort causes: `log.Fatalf("could not find model of type %s for field %s", ..)`
carrying the missing type and the referencing field, and the nil pointer
dereference of `enableMarshal(nil)` reachable from the unchecked map lookup
in `ApplyMarshalFlags`. -/
inductive PErr where
  | unknownModel (typ fld : String)
  | nilDeref
  deriving DecidableEq, Repr

/-- Outcome of a fuel-bounded run: a final registry, a fatal abort, or fuel
exhaustion (`outOfFuel` for every fuel models the source's unbounded
recursion failing to terminate). -/
inductive Res (α : Type) where
  | ok (a : α)
  | err (e : PErr)
  | outOfFuel
  deriving DecidableEq, Repr

/-- `m.CanMarshal = true` through the registry: set the flag on the model(s)
carrying the name (the pointer write, name-keyed). -/
def setMarshal (models : List Model) (name : String) : List Model :=
  models.map (fun m => if m.Name = name then { m with CanMarshal := true } else m)

/-- `m.CanUnmarshal = true` through the registry. -/
def setUnmarshal (models : List Model) (name : String) : List Model :=
  models.map (fun m => if m.Name = name then { m with CanUnmarshal := true } else m)

/-- `ctx.modelLookup[name]`: the Go map is keyed by `Name` and overwritten on
duplicate insertion, so the last registered model with the name wins. -/
def lookupModel (models : List Model) (name : String) : Option Model :=
  models.reverse.find? (fun m => m.Name = name)

/-- The `baseType` computation shared by all propagation loops:
`baseType := f.Type; if f.IsRepeated { baseType = strings.Trim(baseType, "[]") }`. -/
def baseTypeOf (f : ModelField) : String :=
  if f.IsRepeated then trimBrackets f.Typ else f.Typ

/-- The shared field loop of `enableMarshal`/`enableUnmarshal`: skip
non-message fields and WKT timestamps (`f.Type == "Date"`), look the base
type up (aborting with the `log.Fatalf` error when absent), and recurse via
`step`. -/
def foldStep (step : List Model → Model → Res (List Model)) :
    List ModelField → List Model → Res (List Model)
  | [], models => .ok models
  | f :: fs, models =>
    if f.IsMessage = false ∨ f.Typ = "Date" then foldStep step fs models
    else
      match lookupModel models (baseTypeOf f) with
      | none => .err (.unknownModel (baseTypeOf f) f.Name)
      | some mm =>
        match step models mm with
        | .ok ms => foldStep step fs ms
        | r => r

/-- `enableMarshal`: set the flag, then recurse into every message field's
base type.  The source recurses unconditionally (no visited set); the fuel
argument bounds the recursion depth of the embedding. -/
def enableMarshal : Nat → List Model → Model → Res (List Model)
  | 0, _, _ => .outOfFuel
  | fuel + 1, models, m => foldStep (enableMarshal fuel) m.Fields (setMarshal models m.Name)

/-- `enableUnmarshal`, symmetric to `enableMarshal`. -/
def enableUnmarshal : Nat → List Model → Model → Res (List Model)
  | 0, _, _ => .outOfFuel
  | fuel + 1, models, m => foldStep (enableUnmarshal fuel) m.Fields (setUnmarshal models m.Name)

/-- The `if m.CanMarshal` branch of one field of `ApplyMarshalFlags`: the
lookup result is passed to `enableMarshal` unchecked, so a missing model is
a nil dereference, not the named abort. -/
def applyFieldMarshal (fuel : Nat) (m : Model) (f : ModelField)
    (models : List Model) : Res (List Model) :=
  if m.CanMarshal = true then
    match lookupModel models (baseTypeOf f) with
    | none => .err .nilDeref
    | some mm => enableMarshal fuel models mm
  else .ok models

/-- The `if m.CanUnmarshal` branch: the lookup result is checked, a missing
model is the named `log.Fatalf` abort. -/
def applyFieldUnmarshal (fuel : Nat) (m : Model) (f : ModelField)
    (models : List Model) : Res (List Model) :=
  if m.CanUnmarshal = true then
    match lookupModel models (baseTypeOf f) with
    | none => .err (.unknownModel (baseTypeOf f) f.Name)
    | some mm => enableUnmarshal fuel models mm
  else .ok models

/-- One field of the outer loop of `ApplyMarshalFlags`: skip primitives and
timestamps, then run the marshal branch followed by the unmarshal branch.
`m` is the loop snapshot of the model — its flags cannot change during its
own field loop, since only its own already-true flags trigger recursion. -/
def applyField (fuel : Nat) (m : Model) (f : ModelField)
    (models : List Model) : Res (List Model) :=
  if f.IsMessage = false ∨ f.Typ = "Date" then .ok models
  else
    match applyFieldMarshal fuel m f models with
    | .ok ms1 => applyFieldUnmarshal fuel m f ms1
    | r => r

/-- The `for _, f := range m.Fields` loop of `ApplyMarshalFlags`. -/
def applyFields (fuel : Nat) (m : Model) :
    List ModelField → List Model → Res (List Model)
  | [], models => .ok models
  | f :: fs, models =>
    match applyField fuel m f models with
    | .ok ms => applyFields fuel m fs ms
    | r => r

/-- Process the model at position `i` of the registry (the outer
`for _, m := range ctx.Models` visits each slice position once, reading the
model's current state when it reaches it). -/
def applyAt (fuel : Nat) (i : Nat) (models : List Model) : Res (List Model) :=
  match models[i]? with
  | none => .ok models
  | some m => applyFields fuel m m.Fields models

/-- The outer loop of `ApplyMarshalFlags` over the registry positions. -/
def applyLoop (fuel : Nat) : List Nat → List Model → Res (List Model)
  | [], models => .ok models
  | i :: is, models =>
    match applyAt fuel i models with
    | .ok ms => applyLoop fuel is ms
    | r => r

/-- `ctx.ApplyMarshalFlags()`. -/
def applyMarshalFlags (fuel : Nat) (models : List Model) : Res (List Model) :=
  applyLoop fuel (List.range models.length) models

/-- The seeding loop of `CreateClientAPI`: flag every model whose name is
some method's input type (`CanMarshal`) or output type (`CanUnmarshal`). -/
def seedFlags (models : List Model) (services : List Service) : List Model :=
  models.map (fun m =>
    { m with
      CanMarshal := m.CanMarshal ||
        services.any (fun s => s.Methods.any (fun sm => sm.InputType == m.Name))
      CanUnmarshal := m.CanUnmarshal ||
        services.any (fun s => s.Methods.any (fun sm => sm.OutputType == m.Name)) })

/-- The synthetic timestamp placeholder `ctx.AddModel(&Model{Name: "Date",
Primitive: true})` registered by `CreateClientAPI` after seeding. -/
def dateModel : Model :=
  { Name := "Date", Primitive := true, Fields := [], Map := none
    CanMarshal := false, CanUnmarshal := false }

/-- The registry state on which `ctx.ApplyMarshalFlags()` runs: walker
models, seeded from the service methods, with the `Date` placeholder
appended. -/
def initModels (models : List Model) (services : List Service) : List Model :=
  seedFlags models services ++ [dateModel]

/-- A fuel-indexed run that exhausts every budget: the embedding's rendering
of non-termination of the source's unbounded recursion. -/
def diverges (f : Nat → Res (List Model)) : Prop :=
  ∀ n, f n = .outOfFuel

/-! ### The message-reference graph and reachability -/

/-- One reference edge of the message-reference graph the propagation
follows: model `a` has a message field (not a WKT timestamp) whose base
type is `b`. -/
def Edge (models : List Model) (a b : String) : Prop :=
  ∃ m ∈ models, m.Name = a ∧
    ∃ f ∈ m.Fields, f.IsMessage = true ∧ f.Typ ≠ "Date" ∧ baseTypeOf f = b

/-- Reachability along reference edges (reflexive-transitive closure). -/
def Reaches (models : List Model) : String → String → Prop :=
  Relation.ReflTransGen (Edge models)

/-- `n` is some service method's input type name. -/
def SeedM (services : List Service) (n : String) : Prop :=
  ∃ s ∈ services, ∃ sm ∈ s.Methods, sm.InputType = n

/-- `n` is some service method's output type name. -/
def SeedU (services : List Service) (n : String) : Prop :=
  ∃ s ∈ services, ∃ sm ∈ s.Methods, sm.OutputType = n

/-- The name `n` is reachable from some method input type. -/
def ReachableM (models : List Model) (services : List Service) (n : String) : Prop :=
  ∃ s, SeedM services s ∧ Reaches models s n

/-- The name `n` is reachable from some method output type. -/
def ReachableU (models : List Model) (services : List Service) (n : String) : Prop :=
  ∃ s, SeedU services s ∧ Reaches models s n

/-- Some model named `n` carries `CanMarshal`. -/
def marFlag (models : List Model) (n : String) : Prop :=
  ∃ m ∈ models, m.Name = n ∧ m.CanMarshal = true

/-- Some model named `n` carries `CanUnmarshal`. -/
def unmFlag (models : List Model) (n : String) : Prop :=
  ∃ m ∈ models, m.Name = n ∧ m.CanUnmarshal = true

/-- The flag-free skeleton of a model: propagation never changes it. -/
def modelShape (m : Model) : String × Bool × List ModelField × Option MapDetails :=
  (m.Name, m.Primitive, m.Fields, m.Map)

/-- Two registry states with the same skeletons. -/
def sameShape (ms ms' : List Model) : Prop :=
  ms.map modelShape = ms'.map modelShape

/-- State evolution of the propagation: same skeletons, flags only grow. -/
def flagsLe (ms ms' : List Model) : Prop :=
  sameShape ms ms' ∧
  (∀ n, marFlag ms n → marFlag ms' n) ∧
  (∀ n, unmFlag ms n → unmFlag ms' n)

/-! ### Spec-side definitions (written from the specification's words, for
comparison with the source-derived functions) -/

/-- Concatenation of a list of strings (no separator). -/
def strConcat : List String → String
  | [] => ""
  | s :: ss => s ++ strConcat ss

/-- The dotted namespace accumulated by the walker for a list of enclosing
type names: `""` at the top level, extended by `"." + name` per level. -/
def dottedPre (encl : List String) : String :=
  strConcat (encl.map (fun e => "." ++ e))

mutual

/-- Spec: "the registered Model's name equals the concatenation of all
enclosing type names with dots removed, followed by the type's own name",
listed in pre-order (parent first, children in declaration order). -/
def specFlattenedNames : List String → DescriptorProto → List String
  | encl, .mk nm _ nested _ =>
    (strConcat (encl.map removeDots) ++ nm) :: specFlattenedNamesList (encl ++ [nm]) nested

/-- Pre-order name lists of a list of sibling definitions. -/
def specFlattenedNamesList : List String → List DescriptorProto → List String
  | _, [] => []
  | encl, n :: ns => specFlattenedNames encl n ++ specFlattenedNamesList encl ns

end

/-- Spec: a non-first segment "rendered as its first character uppercased
followed by the remainder lowercased". -/
def specCapitalize (q : List Char) : List Char :=
  (q.take 1).map Char.toUpper ++ (q.drop 1).map Char.toLower

/-- Spec: "the first segment fully lowercased concatenated with each
subsequent segment rendered as its first character uppercased followed by
the remainder lowercased". -/
def specCamelCase (s : String) : String :=
  match splitU s.data with
  | [] => ""
  | p :: ps =>
    String.mk (p.map Char.toLower ++ (ps.map specCapitalize).flatten)

/-! ### Invariants used by the propagation proofs -/

/-- Every `CanMarshal` flag is justified by marshal-reachability. -/
def InvM (models0 : List Model) (services : List Service) (ms : List Model) : Prop :=
  ∀ n, marFlag ms n → ReachableM models0 services n

/-- Every `CanUnmarshal` flag is justified by unmarshal-reachability. -/
def InvU (models0 : List Model) (services : List Service) (ms : List Model) : Prop :=
  ∀ n, unmFlag ms n → ReachableU models0 services n

/-- The propagation invariant: the skeleton of the seeded registry, with
every flag justified by reachability. -/
def GoodState (models0 : List Model) (services : List Service) (ms : List Model) : Prop :=
  sameShape models0 ms ∧ InvM models0 services ms ∧ InvU models0 services ms

/-! ### Concrete instances used by counterexamples and witnesses -/

/-- C2: a self-referential message: model `A` with a field of type `A`. -/
def c2Model : Model :=
  { Name := "A", Primitive := false,
    Fields := [{ Name := "a", Typ := "A", JSONName := "a", JSONType := "AJSON",
                 IsMessage := true, IsRepeated := false, MapType := none }],
    Map := none, CanMarshal := false, CanUnmarshal := false }

/-- C2: a service taking and returning `A`. -/
def c2Svc : Service :=
  { Name := "Svc", Package := "pkg",
    Methods := [{ Name := "get", Path := "Get", InputArg := "a",
                  InputType := "A", OutputType := "A" }] }

/-- C2: `A` as seeded by `CreateClientAPI` (both flags, being input and
output type). -/
def c2Seeded : Model := { c2Model with CanMarshal := true, CanUnmarshal := true }

/-- C2: the registry `ApplyMarshalFlags` runs on. -/
def c2Init : List Model := initModels [c2Model] [c2Svc]

/-- C3: a `float` field. -/
def c3FloatField : FieldDescriptorProto :=
  { name := "f", type := .TYPE_FLOAT, typeName := "", label := .LABEL_OPTIONAL }

/-- C3: an `int32` field. -/
def c3IntField : FieldDescriptorProto :=
  { name := "n", type := .TYPE_INT32, typeName := "", label := .LABEL_OPTIONAL }

/-- C4: a model with a repeated timestamp field (`Type = "Date[]"`). -/
def c4Model : Model :=
  { Name := "M", Primitive := false,
    Fields := [{ Name := "t", Typ := "Date[]", JSONName := "t", JSONType := "string[]",
                 IsMessage := true, IsRepeated := true, MapType := none }],
    Map := none, CanMarshal := false, CanUnmarshal := false }

/-- C4: a service taking and returning `M`. -/
def c4Svc : Service :=
  { Name := "Svc", Package := "pkg",
    Methods := [{ Name := "get", Path := "Get", InputArg := "m",
                  InputType := "M", OutputType := "M" }] }

/-- C4: `M` after the run (both flags seeded). -/
def c4ModelAfter : Model := { c4Model with CanMarshal := true, CanUnmarshal := true }

/-- C4: the `Date` placeholder after the run — flagged by the propagation
through the repeated timestamp field. -/
def c4DateAfter : Model := { dateModel with CanMarshal := true, CanUnmarshal := true }

/-- C4: a non-repeated timestamp field. -/
def c4TsField : FieldDescriptorProto :=
  { name := "created_at", type := .TYPE_MESSAGE,
    typeName := ".google.protobuf.Timestamp", label := .LABEL_OPTIONAL }

/-- C4: an ordinary message field. -/
def c4MsgField : FieldDescriptorProto :=
  { name := "hat", type := .TYPE_MESSAGE,
    typeName := ".twirp.example.Hat", label := .LABEL_OPTIONAL }

/-- C4: a `ModelField` with target type `Date` (non-repeated timestamp). -/
def c4DateModelField : ModelField :=
  { Name := "createdAt", Typ := "Date", JSONName := "created_at",
    JSONType := "string", IsMessage := true, IsRepeated := false, MapType := none }

/-- C5: model `A` referencing an unregistered type `B`. -/
def c5Model : Model :=
  { Name := "A", Primitive := false,
    Fields := [{ Name := "b", Typ := "B", JSONName := "b", JSONType := "BJSON",
                 IsMessage := true, IsRepeated := false, MapType := none }],
    Map := none, CanMarshal := false, CanUnmarshal := false }

/-- C5: a service with input type `A` (seeds `CanMarshal` on `A`). -/
def c5SvcIn : Service :=
  { Name := "Svc", Package := "pkg",
    Methods := [{ Name := "get", Path := "Get", InputArg := "a",
                  InputType := "A", OutputType := "Z" }] }

/-- C5: a service with output type `A` (seeds `CanUnmarshal` on `A`). -/
def c5SvcOut : Service :=
  { Name := "Svc", Package := "pkg",
    Methods := [{ Name := "get", Path := "Get", InputArg := "z",
                  InputType := "Z", OutputType := "A" }] }

/-- C1 witness: model `A` referencing `C`. -/
def w1A : Model :=
  { Name := "A", Primitive := false,
    Fields := [{ Name := "c", Typ := "C", JSONName := "c", JSONType := "CJSON",
                 IsMessage := true, IsRepeated := false, MapType := none }],
    Map := none, CanMarshal := false, CanUnmarshal := false }

/-- C1 witness: leaf model `B`. -/
def w1B : Model :=
  { Name := "B", Primitive := false, Fields := [], Map := none,
    CanMarshal := false, CanUnmarshal := false }

/-- C1 witness: leaf model `C`. -/
def w1C : Model :=
  { Name := "C", Primitive := false, Fields := [], Map := none,
    CanMarshal := false, CanUnmarshal := false }

/-- C1 witness: unreferenced model `D`. -/
def w1D : Model :=
  { Name := "D", Primitive := false, Fields := [], Map := none,
    CanMarshal := false, CanUnmarshal := false }

/-- C1 witness: the walker registry. -/
def w1Models : List Model := [w1A, w1B, w1C, w1D]

/-- C1 witness: one method `A → B`. -/
def w1Svc : Service :=
  { Name := "Svc", Package := "pkg",
    Methods := [{ Name := "get", Path := "Get", InputArg := "a",
                  InputType := "A", OutputType := "B" }] }

/-- C1 witness: `C` after the run — `CanMarshal` propagated from `A`. -/
def w1CAfter : Model := { w1C with CanMarshal := true }

/-- C1 witness: the final registry of the run. -/
def w1Final : List Model :=
  [{ w1A with CanMarshal := true }, { w1B with CanUnmarshal := true },
   w1CAfter, w1D, dateModel]

/-- C6/C10/C8 witness: the `key` field of a map entry. -/
def wKeyField : FieldDescriptorProto :=
  { name := "key", type := .TYPE_STRING, typeName := "", label := .LABEL_OPTIONAL }

/-- Map-entry `value` field. -/
def wValField : FieldDescriptorProto :=
  { name := "value", type := .TYPE_INT32, typeName := "", label := .LABEL_OPTIONAL }

/-- C8 witness: a map-entry nested type. -/
def c8Entry : DescriptorProto := .mk "TagsEntry" [wKeyField, wValField] [] true

/-- C10 witness: a map-entry type lacking a `key` field. -/
def c10BadEntry : DescriptorProto := .mk "TagsEntry" [wValField] [] true

/-- C6 witness: three-level nesting `Outer.Middle.Inner`. -/
def c6Inner : DescriptorProto := .mk "Inner" [] [] false

def c6Middle : DescriptorProto := .mk "Middle" [] [c6Inner] false

def c6Outer : DescriptorProto := .mk "Outer" [] [c6Middle] false

/-- C7 witness: one method `M : .p.S → .p.T`. -/
def c7Md : MethodDescriptorProto := { name := "M", inputType := ".p.S", outputType := ".p.T" }

def c7Svc : ServiceDescriptorProto := { name := "Greeter", method := [c7Md] }

/-! ### Basic lemmas about the registry state -/

theorem lookupModel_mem {ms : List Model} {n : String} {m : Model}
    (h : lookupModel ms n = some m) : m ∈ ms ∧ m.Name = n := by
  unfold lookupModel at h
  have hmem := List.mem_of_find?_eq_some h
  have hp := List.find?_some h
  refine ⟨List.mem_reverse.mp hmem, ?_⟩
  simpa using hp

theorem lookupModel_isSome_of_mem {ms : List Model} {m : Model}
    (h : m ∈ ms) (hn : m.Name = n) : (lookupModel ms n).isSome := by
  unfold lookupModel
  rw [List.find?_isSome]
  exact ⟨m, List.mem_reverse.mpr h, by simp [hn]⟩

theorem sameShape_refl (ms : List Model) : sameShape ms ms := rfl

theorem sameShape_trans {a b c : List Model}
    (h1 : sameShape a b) (h2 : sameShape b c) : sameShape a c :=
  h1.trans h2

theorem sameShape_names {a b : List Model} (h : sameShape a b) :
    a.map Model.Name = b.map Model.Name := by
  have h1 : (a.map modelShape).map Prod.fst = (b.map modelShape).map Prod.fst := by rw [h]
  simpa [List.map_map, Function.comp, modelShape] using h1

theorem mem_shape_of_mem {a b : List Model} (h : sameShape a b) {m : Model}
    (hm : m ∈ b) : ∃ m0 ∈ a, modelShape m0 = modelShape m := by
  have : modelShape m ∈ b.map modelShape := List.mem_map_of_mem _ hm
  rw [← h] at this
  obtain ⟨m0, hm0, he⟩ := List.mem_map.mp this
  exact ⟨m0, hm0, he⟩

theorem mem_shape_of_mem' {a b : List Model} (h : sameShape a b) {m0 : Model}
    (hm : m0 ∈ a) : ∃ m ∈ b, modelShape m0 = modelShape m := by
  have : modelShape m0 ∈ a.map modelShape := List.mem_map_of_mem _ hm
  rw [h] at this
  obtain ⟨m, hm', he⟩ := List.mem_map.mp this
  exact ⟨m, hm', he.symm⟩

theorem modelShape_eq_iff {a b : Model} (h : modelShape a = modelShape b) :
    a.Name = b.Name ∧ a.Primitive = b.Primitive ∧ a.Fields = b.Fields ∧ a.Map = b.Map := by
  simpa [modelShape] using h

theorem setMarshal_sameShape (ms : List Model) (n : String) :
    sameShape ms (setMarshal ms n) := by
  unfold sameShape setMarshal
  rw [List.map_map]
  apply List.map_congr_left
  intro m _
  by_cases h : m.Name = n <;> simp [h, modelShape]

theorem setUnmarshal_sameShape (ms : List Model) (n : String) :
    sameShape ms (setUnmarshal ms n) := by
  unfold sameShape setUnmarshal
  rw [List.map_map]
  apply List.map_congr_left
  intro m _
  by_cases h : m.Name = n <;> simp [h, modelShape]

theorem marFlag_setMarshal {ms : List Model} {n k : String} :
    marFlag (setMarshal ms n) k ↔
      marFlag ms k ∨ (k = n ∧ ∃ m ∈ ms, m.Name = n) := by
  unfold marFlag setMarshal
  constructor
  · rintro ⟨m, hm, hname, hflag⟩
    obtain ⟨m0, hm0, rfl⟩ := List.mem_map.mp hm
    by_cases h : m0.Name = n
    · rw [if_pos h] at hname
      right
      have hk : m0.Name = k := by simpa using hname
      exact ⟨hk.symm.trans h, m0, hm0, h⟩
    · left
      rw [if_neg h] at hname hflag
      exact ⟨m0, hm0, hname, hflag⟩
  · rintro (⟨m, hm, hname, hflag⟩ | ⟨rfl, m, hm, hname⟩)
    · by_cases h : m.Name = n
      · exact ⟨{ m with CanMarshal := true }, List.mem_map.mpr ⟨m, hm, by rw [if_pos h]⟩,
          by simpa using hname, rfl⟩
      · exact ⟨m, List.mem_map.mpr ⟨m, hm, by rw [if_neg h]⟩, hname, hflag⟩
    · exact ⟨{ m with CanMarshal := true }, List.mem_map.mpr ⟨m, hm, by rw [if_pos hname]⟩,
        by simpa using hname, rfl⟩

theorem unmFlag_setMarshal {ms : List Model} {n k : String} :
    unmFlag (setMarshal ms n) k ↔ unmFlag ms k := by
  unfold unmFlag setMarshal
  constructor
  · rintro ⟨m, hm, hname, hflag⟩
    obtain ⟨m0, hm0, rfl⟩ := List.mem_map.mp hm
    by_cases h : m0.Name = n
    · rw [if_pos h] at hname hflag
      exact ⟨m0, hm0, by simpa using hname, by simpa using hflag⟩
    · rw [if_neg h] at hname hflag
      exact ⟨m0, hm0, hname, hflag⟩
  · rintro ⟨m, hm, hname, hflag⟩
    by_cases h : m.Name = n
    · exact ⟨{ m with CanMarshal := true }, List.mem_map.mpr ⟨m, hm, by rw [if_pos h]⟩,
        by simpa using hname, by simpa using hflag⟩
    · exact ⟨m, List.mem_map.mpr ⟨m, hm, by rw [if_neg h]⟩, hname, hflag⟩

theorem unmFlag_setUnmarshal {ms : List Model} {n k : String} :
    unmFlag (setUnmarshal ms n) k ↔
      unmFlag ms k ∨ (k = n ∧ ∃ m ∈ ms, m.Name = n) := by
  unfold unmFlag setUnmarshal
  constructor
  · rintro ⟨m, hm, hname, hflag⟩
    obtain ⟨m0, hm0, rfl⟩ := List.mem_map.mp hm
    by_cases h : m0.Name = n
    · rw [if_pos h] at hname
      right
      have hk : m0.Name = k := by simpa using hname
      exact ⟨hk.symm.trans h, m0, hm0, h⟩
    · left
      rw [if_neg h] at hname hflag
      exact ⟨m0, hm0, hname, hflag⟩
  · rintro (⟨m, hm, hname, hflag⟩ | ⟨rfl, m, hm, hname⟩)
    · by_cases h : m.Name = n
      · exact ⟨{ m with CanUnmarshal := true }, List.mem_map.mpr ⟨m, hm, by rw [if_pos h]⟩,
          by simpa using hname, rfl⟩
      · exact ⟨m, List.mem_map.mpr ⟨m, hm, by rw [if_neg h]⟩, hname, hflag⟩
    · exact ⟨{ m with CanUnmarshal := true }, List.mem_map.mpr ⟨m, hm, by rw [if_pos hname]⟩,
        by simpa using hname, rfl⟩

theorem marFlag_setUnmarshal {ms : List Model} {n k : String} :
    marFlag (setUnmarshal ms n) k ↔ marFlag ms k := by
  unfold marFlag setUnmarshal
  constructor
  · rintro ⟨m, hm, hname, hflag⟩
    obtain ⟨m0, hm0, rfl⟩ := List.mem_map.mp hm
    by_cases h : m0.Name = n
    · rw [if_pos h] at hname hflag
      exact ⟨m0, hm0, by simpa using hname, by simpa using hflag⟩
    · rw [if_neg h] at hname hflag
      exact ⟨m0, hm0, hname, hflag⟩
  · rintro ⟨m, hm, hname, hflag⟩
    by_cases h : m.Name = n
    · exact ⟨{ m with CanUnmarshal := true }, List.mem_map.mpr ⟨m, hm, by rw [if_pos h]⟩,
        by simpa using hname, by simpa using hflag⟩
    · exact ⟨m, List.mem_map.mpr ⟨m, hm, by rw [if_neg h]⟩, hname, hflag⟩

theorem flagsLe_refl (ms : List Model) : flagsLe ms ms :=
  ⟨rfl, fun _ h => h, fun _ h => h⟩

theorem flagsLe_trans {a b c : List Model}
    (h1 : flagsLe a b) (h2 : flagsLe b c) : flagsLe a c :=
  ⟨h1.1.trans h2.1, fun n h => h2.2.1 n (h1.2.1 n h), fun n h => h2.2.2 n (h1.2.2 n h)⟩

theorem flagsLe_setMarshal (ms : List Model) (n : String) :
    flagsLe ms (setMarshal ms n) :=
  ⟨setMarshal_sameShape ms n,
   fun _ h => marFlag_setMarshal.mpr (Or.inl h),
   fun _ h => unmFlag_setMarshal.mpr h⟩

theorem flagsLe_setUnmarshal (ms : List Model) (n : String) :
    flagsLe ms (setUnmarshal ms n) :=
  ⟨setUnmarshal_sameShape ms n,
   fun _ h => marFlag_setUnmarshal.mpr h,
   fun _ h => unmFlag_setUnmarshal.mpr (Or.inl h)⟩

theorem marFlag_setMarshal_self {ms : List Model} {n : String} {m : Model}
    (hm : m ∈ ms) (hn : m.Name = n) : marFlag (setMarshal ms n) n :=
  marFlag_setMarshal.mpr (Or.inr ⟨rfl, m, hm, hn⟩)

theorem unmFlag_setUnmarshal_self {ms : List Model} {n : String} {m : Model}
    (hm : m ∈ ms) (hn : m.Name = n) : unmFlag (setUnmarshal ms n) n :=
  unmFlag_setUnmarshal.mpr (Or.inr ⟨rfl, m, hm, hn⟩)

/-! ### Generic lemmas about the shared field loop `foldStep` -/

theorem foldStep_flagsLe {step : List Model → Model → Res (List Model)}
    (hstep : ∀ ms m out, step ms m = .ok out → flagsLe ms out) :
    ∀ (fs : List ModelField) (ms out : List Model),
      foldStep step fs ms = .ok out → flagsLe ms out := by
  intro fs
  induction fs with
  | nil =>
    intro ms out h
    unfold foldStep at h
    cases h
    exact flagsLe_refl _
  | cons f fs ih =>
    intro ms out h
    unfold foldStep at h
    split at h
    · exact ih ms out h
    · split at h
      · cases h
      · rename_i mm hlk
        split at h
        · rename_i ms2 hst
          exact flagsLe_trans (hstep ms mm ms2 hst) (ih ms2 out h)
        · rename_i r hne
          exact absurd h (fun hh => hne out hh)

theorem foldStep_decomp {step : List Model → Model → Res (List Model)}
    (hstep : ∀ ms m out, step ms m = .ok out → flagsLe ms out) :
    ∀ (fs : List ModelField) (ms out : List Model),
      foldStep step fs ms = .ok out →
      ∀ f ∈ fs, f.IsMessage = true → f.Typ ≠ "Date" →
      ∃ ma mm mb, flagsLe ms ma ∧ lookupModel ma (baseTypeOf f) = some mm ∧
        step ma mm = .ok mb ∧ flagsLe mb out := by
  intro fs
  induction fs with
  | nil => intro ms out _ f hf; cases hf
  | cons g fs ih =>
    intro ms out h f hf hmsg hdate
    unfold foldStep at h
    split at h
    · rename_i hskip
      cases hf with
      | head =>
        cases hskip with
        | inl h1 => rw [hmsg] at h1; cases h1
        | inr h1 => exact absurd h1 hdate
      | tail _ hf2 => exact ih ms out h f hf2 hmsg hdate
    · split at h
      · cases h
      · rename_i mm hlk
        split at h
        · rename_i ms2 hst
          cases hf with
          | head =>
            exact ⟨ms, mm, ms2, flagsLe_refl ms, hlk, hst,
              foldStep_flagsLe hstep fs ms2 out h⟩
          | tail _ hf2 =>
            obtain ⟨ma, mx, mb, h1, h2, h3, h4⟩ := ih ms2 out h f hf2 hmsg hdate
            exact ⟨ma, mx, mb, flagsLe_trans (hstep ms mm ms2 hst) h1, h2, h3, h4⟩
        · rename_i r hne
          exact absurd h (fun hh => hne out hh)

theorem foldStep_inv {step : List Model → Model → Res (List Model)}
    {P : List Model → Prop} {G : String → Prop}
    (hstep : ∀ ms mm out, P ms → mm ∈ ms → G mm.Name → step ms mm = .ok out → P out) :
    ∀ (fs : List ModelField) (ms out : List Model),
      (∀ f ∈ fs, f.IsMessage = true → f.Typ ≠ "Date" → G (baseTypeOf f)) →
      P ms → foldStep step fs ms = .ok out → P out := by
  intro fs
  induction fs with
  | nil =>
    intro ms out _ hP h
    unfold foldStep at h
    cases h
    exact hP
  | cons f fs ih =>
    intro ms out hG hP h
    unfold foldStep at h
    split at h
    · exact ih ms out (fun g hg => hG g (List.mem_cons_of_mem f hg)) hP h
    · rename_i hskip
      push_neg at hskip
      have hmsg : f.IsMessage = true := by
        cases hb : f.IsMessage
        · exact absurd hb hskip.1
        · rfl
      split at h
      · cases h
      · rename_i mm hlk
        split at h
        · rename_i ms2 hst
          obtain ⟨hmem, hname⟩ := lookupModel_mem hlk
          have hGf : G (baseTypeOf f) := hG f (List.mem_cons_self f fs) hmsg hskip.2
          have hP2 : P ms2 := hstep ms mm ms2 hP hmem (by rw [hname]; exact hGf) hst
          exact ih ms2 out (fun g hg => hG g (List.mem_cons_of_mem f hg)) hP2 h
        · rename_i r hne
          exact absurd h (fun hh => hne out hh)

theorem foldStep_backward {step : List Model → Model → Res (List Model)}
    {Q : List Model → String → Prop}
    (hstep : ∀ ms m out, step ms m = .ok out → ∀ n, Q out n → Q ms n) :
    ∀ (fs : List ModelField) (ms out : List Model),
      foldStep step fs ms = .ok out → ∀ n, Q out n → Q ms n := by
  intro fs
  induction fs with
  | nil =>
    intro ms out h
    unfold foldStep at h
    cases h
    exact fun _ hq => hq
  | cons f fs ih =>
    intro ms out h
    unfold foldStep at h
    split at h
    · exact ih ms out h
    · split at h
      · cases h
      · rename_i mm hlk
        split at h
        · rename_i ms2 hst
          exact fun n hq => hstep ms mm ms2 hst n (ih ms2 out h n hq)
        · rename_i r hne
          exact absurd h (fun hh => hne out hh)

theorem enableMarshal_flagsLe :
    ∀ (fuel : Nat) (ms : List Model) (m : Model) (out : List Model),
      enableMarshal fuel ms m = .ok out → flagsLe ms out := by
  intro fuel
  induction fuel with
  | zero => intro ms m out h; simp [enableMarshal] at h
  | succ k ih =>
    intro ms m out h
    unfold enableMarshal at h
    exact flagsLe_trans (flagsLe_setMarshal ms m.Name)
      (foldStep_flagsLe (fun a b c hh => ih a b c hh) m.Fields _ out h)

theorem enableUnmarshal_flagsLe :
    ∀ (fuel : Nat) (ms : List Model) (m : Model) (out : List Model),
      enableUnmarshal fuel ms m = .ok out → flagsLe ms out := by
  intro fuel
  induction fuel with
  | zero => intro ms m out h; simp [enableUnmarshal] at h
  | succ k ih =>
    intro ms m out h
    unfold enableUnmarshal at h
    exact flagsLe_trans (flagsLe_setUnmarshal ms m.Name)
      (foldStep_flagsLe (fun a b c hh => ih a b c hh) m.Fields _ out h)

theorem enableMarshal_unm_backward :
    ∀ (fuel : Nat) (ms : List Model) (m : Model) (out : List Model),
      enableMarshal fuel ms m = .ok out → ∀ n, unmFlag out n → unmFlag ms n := by
  intro fuel
  induction fuel with
  | zero => intro ms m out h; simp [enableMarshal] at h
  | succ k ih =>
    intro ms m out h n hq
    unfold enableMarshal at h
    exact unmFlag_setMarshal.mp
      (foldStep_backward (fun a b c hh => ih a b c hh) m.Fields _ out h n hq)

theorem enableUnmarshal_mar_backward :
    ∀ (fuel : Nat) (ms : List Model) (m : Model) (out : List Model),
      enableUnmarshal fuel ms m = .ok out → ∀ n, marFlag out n → marFlag ms n := by
  intro fuel
  induction fuel with
  | zero => intro ms m out h; simp [enableUnmarshal] at h
  | succ k ih =>
    intro ms m out h n hq
    unfold enableUnmarshal at h
    exact marFlag_setUnmarshal.mp
      (foldStep_backward (fun a b c hh => ih a b c hh) m.Fields _ out h n hq)

theorem mem_name_fields_of_shape {models0 ms : List Model}
    (hshape : sameShape models0 ms) {m : Model} (hm : m ∈ ms) :
    ∃ m0 ∈ models0, m0.Name = m.Name ∧ m0.Fields = m.Fields := by
  obtain ⟨m0, hm0, hsh⟩ := mem_shape_of_mem hshape hm
  have h := modelShape_eq_iff hsh
  exact ⟨m0, hm0, h.1, h.2.2.1⟩

theorem reachableM_tail {models0 : List Model} {services : List Service}
    {a b : String} (h : ReachableM models0 services a) (he : Edge models0 a b) :
    ReachableM models0 services b := by
  obtain ⟨s, hs, hp⟩ := h
  exact ⟨s, hs, hp.tail he⟩

theorem reachableU_tail {models0 : List Model} {services : List Service}
    {a b : String} (h : ReachableU models0 services a) (he : Edge models0 a b) :
    ReachableU models0 services b := by
  obtain ⟨s, hs, hp⟩ := h
  exact ⟨s, hs, hp.tail he⟩

theorem enableMarshal_sound :
    ∀ (fuel : Nat) (models0 : List Model) (services : List Service)
      (ms : List Model) (m : Model) (out : List Model),
      GoodState models0 services ms →
      (∃ m0 ∈ models0, m0.Name = m.Name ∧ m0.Fields = m.Fields) →
      ReachableM models0 services m.Name →
      enableMarshal fuel ms m = .ok out →
      GoodState models0 services out := by
  intro fuel
  induction fuel with
  | zero => intro a b c d e hg hm hr h; simp [enableMarshal] at h
  | succ k ih =>
    intro models0 services ms m out hgood hm0 hreach h
    unfold enableMarshal at h
    obtain ⟨m0, hm0mem, hm0name, hm0fields⟩ := hm0
    refine foldStep_inv (P := GoodState models0 services)
      (G := ReachableM models0 services) ?_ m.Fields _ out ?_ ?_ h
    · intro ms1 mm out1 hP hmem hG hst
      exact ih models0 services ms1 mm out1 hP
        (mem_name_fields_of_shape hP.1 hmem) hG hst
    · intro f hf hmsg hdate
      refine reachableM_tail hreach ⟨m0, hm0mem, hm0name, f, ?_, hmsg, hdate, rfl⟩
      rw [hm0fields]; exact hf
    · refine ⟨sameShape_trans hgood.1 (setMarshal_sameShape ms m.Name), ?_, ?_⟩
      · intro n hn
        rcases marFlag_setMarshal.mp hn with hold | ⟨rfl, _⟩
        · exact hgood.2.1 n hold
        · exact hreach
      · intro n hn
        exact hgood.2.2 n (unmFlag_setMarshal.mp hn)

theorem enableUnmarshal_sound :
    ∀ (fuel : Nat) (models0 : List Model) (services : List Service)
      (ms : List Model) (m : Model) (out : List Model),
      GoodState models0 services ms →
      (∃ m0 ∈ models0, m0.Name = m.Name ∧ m0.Fields = m.Fields) →
      ReachableU models0 services m.Name →
      enableUnmarshal fuel ms m = .ok out →
      GoodState models0 services out := by
  intro fuel
  induction fuel with
  | zero => intro a b c d e hg hm hr h; simp [enableUnmarshal] at h
  | succ k ih =>
    intro models0 services ms m out hgood hm0 hreach h
    unfold enableUnmarshal at h
    obtain ⟨m0, hm0mem, hm0name, hm0fields⟩ := hm0
    refine foldStep_inv (P := GoodState models0 services)
      (G := ReachableU models0 services) ?_ m.Fields _ out ?_ ?_ h
    · intro ms1 mm out1 hP hmem hG hst
      exact ih models0 services ms1 mm out1 hP
        (mem_name_fields_of_shape hP.1 hmem) hG hst
    · intro f hf hmsg hdate
      refine reachableU_tail hreach ⟨m0, hm0mem, hm0name, f, ?_, hmsg, hdate, rfl⟩
      rw [hm0fields]; exact hf
    · refine ⟨sameShape_trans hgood.1 (setUnmarshal_sameShape ms m.Name), ?_, ?_⟩
      · intro n hn
        exact hgood.2.1 n (marFlag_setUnmarshal.mp hn)
      · intro n hn
        rcases unmFlag_setUnmarshal.mp hn with hold | ⟨rfl, _⟩
        · exact hgood.2.2 n hold
        · exact hreach

theorem enableMarshal_complete :
    ∀ (fuel : Nat) (models0 ms : List Model) (m : Model) (out : List Model) (n : String),
      (models0.map Model.Name).Nodup →
      sameShape models0 ms →
      (∃ m0 ∈ models0, m0.Name = m.Name ∧ m0.Fields = m.Fields) →
      enableMarshal fuel ms m = .ok out →
      Reaches models0 m.Name n →
      marFlag out n := by
  intro fuel
  induction fuel with
  | zero => intro a b c d e hnd hs hm h; simp [enableMarshal] at h
  | succ k ih =>
    intro models0 ms m out n hnodup hshape hm0 h hpath
    obtain ⟨m0, hm0mem, hm0name, hm0fields⟩ := hm0
    unfold enableMarshal at h
    rcases Relation.ReflTransGen.cases_head hpath with heq | ⟨b, hedge, hrest⟩
    · obtain ⟨mw, hmw, hsh⟩ := mem_shape_of_mem' hshape hm0mem
      have hname : mw.Name = m.Name := by
        have := (modelShape_eq_iff hsh).1
        rw [← this, hm0name]
      have h1 : marFlag (setMarshal ms m.Name) m.Name := marFlag_setMarshal_self hmw hname
      have h2 := foldStep_flagsLe (fun a b c hh => enableMarshal_flagsLe k a b c hh)
        m.Fields _ out h
      rw [← heq]
      exact h2.2.1 _ h1
    · obtain ⟨me, hme, hmeName, f, hfmem, hfmsg, hfdate, hfbt⟩ := hedge
      have hinj := List.inj_on_of_nodup_map hnodup
      have heq0 : me = m0 := hinj hme hm0mem (by rw [hmeName, hm0name])
      have hf' : f ∈ m.Fields := by
        rw [← hm0fields, ← heq0]; exact hfmem
      obtain ⟨ma, mm, mb, hle1, hlk, hst, hle2⟩ :=
        foldStep_decomp (fun a b c hh => enableMarshal_flagsLe k a b c hh)
          m.Fields _ out h f hf' hfmsg hfdate
      have hshape_ma : sameShape models0 ma :=
        sameShape_trans (sameShape_trans hshape (setMarshal_sameShape ms m.Name)) hle1.1
      obtain ⟨hmmMem, hmmName⟩ := lookupModel_mem hlk
      have hmm0 := mem_name_fields_of_shape hshape_ma hmmMem
      have hres : marFlag mb n := by
        refine ih models0 ma mm mb n hnodup hshape_ma hmm0 hst ?_
        rw [hmmName, hfbt]
        exact hrest
      exact hle2.2.1 n hres

theorem enableUnmarshal_complete :
    ∀ (fuel : Nat) (models0 ms : List Model) (m : Model) (out : List Model) (n : String),
      (models0.map Model.Name).Nodup →
      sameShape models0 ms →
      (∃ m0 ∈ models0, m0.Name = m.Name ∧ m0.Fields = m.Fields) →
      enableUnmarshal fuel ms m = .ok out →
      Reaches models0 m.Name n →
      unmFlag out n := by
  intro fuel
  induction fuel with
  | zero => intro a b c d e hnd hs hm h; simp [enableUnmarshal] at h
  | succ k ih =>
    intro models0 ms m out n hnodup hshape hm0 h hpath
    obtain ⟨m0, hm0mem, hm0name, hm0fields⟩ := hm0
    unfold enableUnmarshal at h
    rcases Relation.ReflTransGen.cases_head hpath with heq | ⟨b, hedge, hrest⟩
    · obtain ⟨mw, hmw, hsh⟩ := mem_shape_of_mem' hshape hm0mem
      have hname : mw.Name = m.Name := by
        have := (modelShape_eq_iff hsh).1
        rw [← this, hm0name]
      have h1 : unmFlag (setUnmarshal ms m.Name) m.Name := unmFlag_setUnmarshal_self hmw hname
      have h2 := foldStep_flagsLe (fun a b c hh => enableUnmarshal_flagsLe k a b c hh)
        m.Fields _ out h
      rw [← heq]
      exact h2.2.2 _ h1
    · obtain ⟨me, hme, hmeName, f, hfmem, hfmsg, hfdate, hfbt⟩ := hedge
      have hinj := List.inj_on_of_nodup_map hnodup
      have heq0 : me = m0 := hinj hme hm0mem (by rw [hmeName, hm0name])
      have hf' : f ∈ m.Fields := by
        rw [← hm0fields, ← heq0]; exact hfmem
      obtain ⟨ma, mm, mb, hle1, hlk, hst, hle2⟩ :=
        foldStep_decomp (fun a b c hh => enableUnmarshal_flagsLe k a b c hh)
          m.Fields _ out h f hf' hfmsg hfdate
      have hshape_ma : sameShape models0 ma :=
        sameShape_trans (sameShape_trans hshape (setUnmarshal_sameShape ms m.Name)) hle1.1
      obtain ⟨hmmMem, hmmName⟩ := lookupModel_mem hlk
      have hmm0 := mem_name_fields_of_shape hshape_ma hmmMem
      have hres : unmFlag mb n := by
        refine ih models0 ma mm mb n hnodup hshape_ma hmm0 hst ?_
        rw [hmmName, hfbt]
        exact hrest
      exact hle2.2.2 n hres


theorem applyFieldMarshal_flagsLe (fuel : Nat) (m : Model) (f : ModelField)
    (ms out : List Model) (h : applyFieldMarshal fuel m f ms = .ok out) :
    flagsLe ms out := by
  unfold applyFieldMarshal at h
  split at h
  · split at h
    · cases h
    · rename_i mm hlk
      exact enableMarshal_flagsLe fuel ms mm out h
  · cases h; exact flagsLe_refl _

theorem applyFieldUnmarshal_flagsLe (fuel : Nat) (m : Model) (f : ModelField)
    (ms out : List Model) (h : applyFieldUnmarshal fuel m f ms = .ok out) :
    flagsLe ms out := by
  unfold applyFieldUnmarshal at h
  split at h
  · split at h
    · cases h
    · rename_i mm hlk
      exact enableUnmarshal_flagsLe fuel ms mm out h
  · cases h; exact flagsLe_refl _

theorem applyField_flagsLe (fuel : Nat) (m : Model) (f : ModelField)
    (ms out : List Model) (h : applyField fuel m f ms = .ok out) :
    flagsLe ms out := by
  unfold applyField at h
  split at h
  · cases h; exact flagsLe_refl _
  · split at h
    · rename_i ms1 hM
      exact flagsLe_trans (applyFieldMarshal_flagsLe fuel m f ms ms1 hM)
        (applyFieldUnmarshal_flagsLe fuel m f ms1 out h)
    · rename_i r hne
      exact absurd h (fun hh => hne out hh)

theorem applyField_sound (fuel : Nat) (models0 : List Model) (services : List Service)
    (m : Model) (f : ModelField) (ms out : List Model)
    (hgood : GoodState models0 services ms)
    (hmar : m.CanMarshal = true → ReachableM models0 services m.Name)
    (hunm : m.CanUnmarshal = true → ReachableU models0 services m.Name)
    (hm0 : ∃ m0 ∈ models0, m0.Name = m.Name ∧ m0.Fields = m.Fields)
    (hfm : f ∈ m.Fields)
    (h : applyField fuel m f ms = .ok out) :
    GoodState models0 services out := by
  unfold applyField at h
  split at h
  · cases h; exact hgood
  · rename_i hskip
    push_neg at hskip
    have hmsg : f.IsMessage = true := by
      cases hb : f.IsMessage
      · exact absurd hb hskip.1
      · rfl
    obtain ⟨m0, hm0mem, hm0name, hm0fields⟩ := hm0
    have hedge : Edge models0 m.Name (baseTypeOf f) :=
      ⟨m0, hm0mem, hm0name, f, by rw [hm0fields]; exact hfm, hmsg, hskip.2, rfl⟩
    split at h
    · rename_i ms1 hM
      have hgood1 : GoodState models0 services ms1 := by
        unfold applyFieldMarshal at hM
        split at hM
        · rename_i hcm
          split at hM
          · cases hM
          · rename_i mm hlk
            obtain ⟨hmem, hname⟩ := lookupModel_mem hlk
            refine enableMarshal_sound fuel models0 services ms mm ms1 hgood
              (mem_name_fields_of_shape hgood.1 hmem) ?_ hM
            rw [hname]
            exact reachableM_tail (hmar hcm) hedge
        · cases hM; exact hgood
      unfold applyFieldUnmarshal at h
      split at h
      · rename_i hcu
        split at h
        · cases h
        · rename_i mm hlk
          obtain ⟨hmem, hname⟩ := lookupModel_mem hlk
          refine enableUnmarshal_sound fuel models0 services ms1 mm out hgood1
            (mem_name_fields_of_shape hgood1.1 hmem) ?_ h
          rw [hname]
          exact reachableU_tail (hunm hcu) hedge
      · cases h; exact hgood1
    · rename_i r hne
      exact absurd h (fun hh => hne out hh)

theorem applyField_marshal_decomp (fuel : Nat) (m : Model) (f : ModelField)
    (ms out : List Model) (hcm : m.CanMarshal = true)
    (hmsg : f.IsMessage = true) (hdate : f.Typ ≠ "Date")
    (h : applyField fuel m f ms = .ok out) :
    ∃ mm mid, lookupModel ms (baseTypeOf f) = some mm ∧
      enableMarshal fuel ms mm = .ok mid ∧ flagsLe mid out := by
  unfold applyField at h
  split at h
  · rename_i hskip
    cases hskip with
    | inl h1 => rw [hmsg] at h1; cases h1
    | inr h1 => exact absurd h1 hdate
  · split at h
    · rename_i ms1 hM
      unfold applyFieldMarshal at hM
      rw [if_pos hcm] at hM
      split at hM
      · cases hM
      · rename_i mm hlk
        exact ⟨mm, ms1, hlk, hM, applyFieldUnmarshal_flagsLe fuel m f ms1 out h⟩
    · rename_i r hne
      exact absurd h (fun hh => hne out hh)

theorem applyField_unmarshal_decomp (fuel : Nat) (m : Model) (f : ModelField)
    (ms out : List Model) (hcu : m.CanUnmarshal = true)
    (hmsg : f.IsMessage = true) (hdate : f.Typ ≠ "Date")
    (h : applyField fuel m f ms = .ok out) :
    ∃ ms1 mm, flagsLe ms ms1 ∧ lookupModel ms1 (baseTypeOf f) = some mm ∧
      enableUnmarshal fuel ms1 mm = .ok out := by
  unfold applyField at h
  split at h
  · rename_i hskip
    cases hskip with
    | inl h1 => rw [hmsg] at h1; cases h1
    | inr h1 => exact absurd h1 hdate
  · split at h
    · rename_i ms1 hM
      have hle1 := applyFieldMarshal_flagsLe fuel m f ms ms1 hM
      unfold applyFieldUnmarshal at h
      rw [if_pos hcu] at h
      split at h
      · cases h
      · rename_i mm hlk
        exact ⟨ms1, mm, hle1, hlk, h⟩
    · rename_i r hne
      exact absurd h (fun hh => hne out hh)

theorem sameShape_getElem {a b : List Model} (h : sameShape a b) {i : Nat} {m : Model}
    (hm : a[i]? = some m) : ∃ m', b[i]? = some m' ∧ modelShape m = modelShape m' := by
  have h1 : (a.map modelShape)[i]? = (b.map modelShape)[i]? := by rw [h]
  rw [List.getElem?_map, List.getElem?_map, hm] at h1
  cases hb : b[i]? with
  | none => rw [hb] at h1; cases h1
  | some m' =>
    rw [hb] at h1
    exact ⟨m', rfl, by simpa using h1⟩

theorem applyFields_flagsLe (fuel : Nat) (m : Model) :
    ∀ (fs : List ModelField) (ms out : List Model),
      applyFields fuel m fs ms = .ok out → flagsLe ms out := by
  intro fs
  induction fs with
  | nil =>
    intro ms out h
    unfold applyFields at h
    cases h
    exact flagsLe_refl _
  | cons f fs ih =>
    intro ms out h
    unfold applyFields at h
    split at h
    · rename_i ms2 hst
      exact flagsLe_trans (applyField_flagsLe fuel m f ms ms2 hst) (ih ms2 out h)
    · rename_i r hne
      exact absurd h (fun hh => hne out hh)

theorem applyFields_sound (fuel : Nat) (models0 : List Model) (services : List Service)
    (m : Model)
    (hmar : m.CanMarshal = true → ReachableM models0 services m.Name)
    (hunm : m.CanUnmarshal = true → ReachableU models0 services m.Name)
    (hm0 : ∃ m0 ∈ models0, m0.Name = m.Name ∧ m0.Fields = m.Fields) :
    ∀ (fs : List ModelField), (∀ f ∈ fs, f ∈ m.Fields) →
    ∀ (ms out : List Model),
      GoodState models0 services ms →
      applyFields fuel m fs ms = .ok out → GoodState models0 services out := by
  intro fs
  induction fs with
  | nil =>
    intro _ ms out hgood h
    unfold applyFields at h
    cases h
    exact hgood
  | cons f fs ih =>
    intro hsub ms out hgood h
    unfold applyFields at h
    split at h
    · rename_i ms2 hst
      have hgood2 := applyField_sound fuel models0 services m f ms ms2 hgood
        hmar hunm hm0 (hsub f (List.mem_cons_self f fs)) hst
      exact ih (fun g hg => hsub g (List.mem_cons_of_mem f hg)) ms2 out hgood2 h
    · rename_i r hne
      exact absurd h (fun hh => hne out hh)

theorem applyFields_decomp (fuel : Nat) (m : Model) :
    ∀ (fs : List ModelField) (ms out : List Model),
      applyFields fuel m fs ms = .ok out →
      ∀ f ∈ fs, ∃ ma mb, flagsLe ms ma ∧ applyField fuel m f ma = .ok mb ∧ flagsLe mb out := by
  intro fs
  induction fs with
  | nil => intro ms out _ f hf; cases hf
  | cons g fs ih =>
    intro ms out h f hf
    unfold applyFields at h
    split at h
    · rename_i ms2 hst
      cases hf with
      | head =>
        exact ⟨ms, ms2, flagsLe_refl ms, hst, applyFields_flagsLe fuel m fs ms2 out h⟩
      | tail _ hf2 =>
        obtain ⟨ma, mb, h1, h2, h3⟩ := ih ms2 out h f hf2
        exact ⟨ma, mb, flagsLe_trans (applyField_flagsLe fuel m g ms ms2 hst) h1, h2, h3⟩
    · rename_i r hne
      exact absurd h (fun hh => hne out hh)

theorem applyAt_flagsLe (fuel i : Nat) (ms out : List Model)
    (h : applyAt fuel i ms = .ok out) : flagsLe ms out := by
  unfold applyAt at h
  split at h
  · cases h; exact flagsLe_refl _
  · rename_i m hm
    exact applyFields_flagsLe fuel m m.Fields ms out h

theorem applyAt_sound (fuel i : Nat) (models0 : List Model) (services : List Service)
    (ms out : List Model) (hgood : GoodState models0 services ms)
    (h : applyAt fuel i ms = .ok out) : GoodState models0 services out := by
  unfold applyAt at h
  split at h
  · cases h; exact hgood
  · rename_i m hm
    have hmem : m ∈ ms := List.getElem?_mem hm
    refine applyFields_sound fuel models0 services m ?_ ?_
      (mem_name_fields_of_shape hgood.1 hmem) m.Fields (fun _ hf => hf) ms out hgood h
    · intro hcm
      exact hgood.2.1 m.Name ⟨m, hmem, rfl, hcm⟩
    · intro hcu
      exact hgood.2.2 m.Name ⟨m, hmem, rfl, hcu⟩

theorem applyLoop_flagsLe (fuel : Nat) :
    ∀ (idxs : List Nat) (ms out : List Model),
      applyLoop fuel idxs ms = .ok out → flagsLe ms out := by
  intro idxs
  induction idxs with
  | nil =>
    intro ms out h
    unfold applyLoop at h
    cases h
    exact flagsLe_refl _
  | cons i idxs ih =>
    intro ms out h
    unfold applyLoop at h
    split at h
    · rename_i ms2 hst
      exact flagsLe_trans (applyAt_flagsLe fuel i ms ms2 hst) (ih ms2 out h)
    · rename_i r hne
      exact absurd h (fun hh => hne out hh)

theorem applyLoop_sound (fuel : Nat) (models0 : List Model) (services : List Service) :
    ∀ (idxs : List Nat) (ms out : List Model),
      GoodState models0 services ms →
      applyLoop fuel idxs ms = .ok out → GoodState models0 services out := by
  intro idxs
  induction idxs with
  | nil =>
    intro ms out hgood h
    unfold applyLoop at h
    cases h
    exact hgood
  | cons i idxs ih =>
    intro ms out hgood h
    unfold applyLoop at h
    split at h
    · rename_i ms2 hst
      exact ih ms2 out (applyAt_sound fuel i models0 services ms ms2 hgood hst) h
    · rename_i r hne
      exact absurd h (fun hh => hne out hh)

theorem applyLoop_decomp (fuel : Nat) :
    ∀ (idxs : List Nat) (ms out : List Model),
      applyLoop fuel idxs ms = .ok out →
      ∀ i ∈ idxs, ∃ ma mb, flagsLe ms ma ∧ applyAt fuel i ma = .ok mb ∧ flagsLe mb out := by
  intro idxs
  induction idxs with
  | nil => intro ms out _ i hi; cases hi
  | cons j idxs ih =>
    intro ms out h i hi
    unfold applyLoop at h
    split at h
    · rename_i ms2 hst
      cases hi with
      | head =>
        exact ⟨ms, ms2, flagsLe_refl ms, hst, applyLoop_flagsLe fuel idxs ms2 out h⟩
      | tail _ hi2 =>
        obtain ⟨ma, mb, h1, h2, h3⟩ := ih ms2 out h i hi2
        exact ⟨ma, mb, flagsLe_trans (applyAt_flagsLe fuel j ms ms2 hst) h1, h2, h3⟩
    · rename_i r hne
      exact absurd h (fun hh => hne out hh)

theorem marFlag_name_unique {ms : List Model} {m : Model}
    (hnodup : (ms.map Model.Name).Nodup) (hm : m ∈ ms)
    (hflag : marFlag ms m.Name) : m.CanMarshal = true := by
  obtain ⟨q, hq, hqname, hqflag⟩ := hflag
  have : q = m := List.inj_on_of_nodup_map hnodup hq hm hqname
  rw [← this]
  exact hqflag

theorem unmFlag_name_unique {ms : List Model} {m : Model}
    (hnodup : (ms.map Model.Name).Nodup) (hm : m ∈ ms)
    (hflag : unmFlag ms m.Name) : m.CanUnmarshal = true := by
  obtain ⟨q, hq, hqname, hqflag⟩ := hflag
  have : q = m := List.inj_on_of_nodup_map hnodup hq hm hqname
  rw [← this]
  exact hqflag

theorem initModels_good {models : List Model} {services : List Service}
    (hclean : ∀ m ∈ models, m.CanMarshal = false ∧ m.CanUnmarshal = false) :
    GoodState (initModels models services) services (initModels models services) := by
  refine ⟨sameShape_refl _, ?_, ?_⟩
  · rintro n ⟨m, hm, hname, hflag⟩
    unfold initModels at hm
    rcases List.mem_append.mp hm with hm | hm
    · unfold seedFlags at hm
      obtain ⟨mw, hmw, rfl⟩ := List.mem_map.mp hm
      have hclean1 := (hclean mw hmw).1
      simp only [hclean1, Bool.false_or] at hflag
      obtain ⟨s, hs, hsm⟩ := List.any_eq_true.mp hflag
      obtain ⟨sm, hsmm, hbe⟩ := List.any_eq_true.mp hsm
      have hin : sm.InputType = n := by
        have := eq_of_beq hbe
        simp only at hname
        rw [this, hname]
      exact ⟨n, ⟨s, hs, sm, hsmm, hin⟩, Relation.ReflTransGen.refl⟩
    · simp only [List.mem_singleton] at hm
      rw [hm] at hflag
      simp [dateModel] at hflag
  · rintro n ⟨m, hm, hname, hflag⟩
    unfold initModels at hm
    rcases List.mem_append.mp hm with hm | hm
    · unfold seedFlags at hm
      obtain ⟨mw, hmw, rfl⟩ := List.mem_map.mp hm
      have hclean1 := (hclean mw hmw).2
      simp only [hclean1, Bool.false_or] at hflag
      obtain ⟨s, hs, hsm⟩ := List.any_eq_true.mp hflag
      obtain ⟨sm, hsmm, hbe⟩ := List.any_eq_true.mp hsm
      have hin : sm.OutputType = n := by
        have := eq_of_beq hbe
        simp only at hname
        rw [this, hname]
      exact ⟨n, ⟨s, hs, sm, hsmm, hin⟩, Relation.ReflTransGen.refl⟩
    · simp only [List.mem_singleton] at hm
      rw [hm] at hflag
      simp [dateModel] at hflag

theorem initModels_marFlag_of_seed {models : List Model} {services : List Service}
    {mw : Model} (hmw : mw ∈ models) (hseed : SeedM services mw.Name) :
    marFlag (initModels models services) mw.Name := by
  obtain ⟨s, hs, sm, hsm, hin⟩ := hseed
  refine ⟨{ mw with
            CanMarshal := mw.CanMarshal ||
              services.any (fun s => s.Methods.any (fun sm => sm.InputType == mw.Name))
            CanUnmarshal := mw.CanUnmarshal ||
              services.any (fun s => s.Methods.any (fun sm => sm.OutputType == mw.Name)) },
    ?_, rfl, ?_⟩
  · unfold initModels seedFlags
    exact List.mem_append.mpr (Or.inl (List.mem_map_of_mem _ hmw))
  · have hany : services.any (fun s => s.Methods.any (fun sm => sm.InputType == mw.Name)) = true :=
      List.any_eq_true.mpr ⟨s, hs, List.any_eq_true.mpr ⟨sm, hsm, beq_iff_eq.mpr hin⟩⟩
    simp [hany]

theorem initModels_unmFlag_of_seed {models : List Model} {services : List Service}
    {mw : Model} (hmw : mw ∈ models) (hseed : SeedU services mw.Name) :
    unmFlag (initModels models services) mw.Name := by
  obtain ⟨s, hs, sm, hsm, hin⟩ := hseed
  refine ⟨{ mw with
            CanMarshal := mw.CanMarshal ||
              services.any (fun s => s.Methods.any (fun sm => sm.InputType == mw.Name))
            CanUnmarshal := mw.CanUnmarshal ||
              services.any (fun s => s.Methods.any (fun sm => sm.OutputType == mw.Name)) },
    ?_, rfl, ?_⟩
  · unfold initModels seedFlags
    exact List.mem_append.mpr (Or.inl (List.mem_map_of_mem _ hmw))
  · have hany : services.any (fun s => s.Methods.any (fun sm => sm.OutputType == mw.Name)) = true :=
      List.any_eq_true.mpr ⟨s, hs, List.any_eq_true.mpr ⟨sm, hsm, beq_iff_eq.mpr hin⟩⟩
    simp [hany]

theorem initModels_mem_name {models : List Model} {services : List Service}
    {m : Model} (hm : m ∈ initModels models services) (hd : m.Name ≠ "Date") :
    ∃ mw ∈ models, mw.Name = m.Name ∧ mw.Fields = m.Fields := by
  unfold initModels at hm
  rcases List.mem_append.mp hm with hm | hm
  · unfold seedFlags at hm
    obtain ⟨mw, hmw, rfl⟩ := List.mem_map.mp hm
    exact ⟨mw, hmw, rfl, rfl⟩
  · simp only [List.mem_singleton] at hm
    rw [hm] at hd
    simp [dateModel] at hd

theorem dateModel_mem_initModels (models : List Model) (services : List Service) :
    dateModel ∈ initModels models services := by
  unfold initModels
  exact List.mem_append.mpr (Or.inr (List.mem_singleton.mpr rfl))

theorem applyMarshalFlags_marshal_complete
    {models : List Model} {services : List Service} {fuel : Nat} {final : List Model}
    (hnodup : ((initModels models services).map Model.Name).Nodup)
    (hdate : ∀ s ∈ services, ∀ sm ∈ s.Methods, sm.InputType ≠ "Date" ∧ sm.OutputType ≠ "Date")
    (hrun : applyMarshalFlags fuel (initModels models services) = .ok final)
    {n : String} (hreach : ReachableM (initModels models services) services n)
    (hex : ∃ q ∈ initModels models services, q.Name = n) :
    marFlag final n := by
  obtain ⟨s, hseed, hpath⟩ := hreach
  have hfl : flagsLe (initModels models services) final := by
    unfold applyMarshalFlags at hrun
    exact applyLoop_flagsLe fuel _ _ final hrun
  rcases Relation.ReflTransGen.cases_head hpath with heq | ⟨b, hedge, hrest⟩
  · subst heq
    by_cases hd : s = "Date"
    · obtain ⟨sv, hsv, sm, hsm, hin⟩ := hseed
      exact absurd (hin.trans hd) ((hdate sv hsv sm hsm).1)
    · obtain ⟨q, hq, hqname⟩ := hex
      obtain ⟨mw, hmw, hmwname, _⟩ := initModels_mem_name hq (by rw [hqname]; exact hd)
      have hmf : marFlag (initModels models services) s := by
        have := initModels_marFlag_of_seed hmw (by rw [hmwname, hqname]; exact hseed)
        rw [hmwname, hqname] at this
        exact this
      exact hfl.2.1 s hmf
  · obtain ⟨me, hme, hmeName, f, hf, hfmsg, hfdate, hfbt⟩ := hedge
    have hmeD : me.Name ≠ "Date" := by
      intro hcon
      have hdm := dateModel_mem_initModels models services
      have : me = dateModel :=
        List.inj_on_of_nodup_map hnodup hme hdm (by rw [hcon]; rfl)
      rw [this] at hf
      simp [dateModel] at hf
    obtain ⟨mw, hmw, hmwname, hmwfields⟩ := initModels_mem_name hme hmeD
    have hmf : marFlag (initModels models services) s := by
      have := initModels_marFlag_of_seed hmw (by rw [hmwname, hmeName]; exact hseed)
      rw [hmwname, hmeName] at this
      exact this
    obtain ⟨i, hgi⟩ := List.getElem?_of_mem hme
    have hirange : i ∈ List.range (initModels models services).length := by
      refine List.mem_range.mpr ?_
      by_contra hgt
      push_neg at hgt
      rw [List.getElem?_eq_none hgt] at hgi
      cases hgi
    unfold applyMarshalFlags at hrun
    obtain ⟨ma, mb, hle1, happ, hle2⟩ := applyLoop_decomp fuel _ _ final hrun i hirange
    obtain ⟨m', hgm', hshm'⟩ := sameShape_getElem hle1.1 hgi
    have hshm := modelShape_eq_iff hshm'
    unfold applyAt at happ
    split at happ
    · rename_i hnone
      rw [hgm'] at hnone
      cases hnone
    · rename_i m2 hm2
      rw [hgm'] at hm2
      have hm2eq : m' = m2 := Option.some.inj hm2
      rw [← hm2eq] at happ
      have hmname : m'.Name = s := by rw [← hshm.1, hmeName]
      have hcm : m'.CanMarshal = true := by
        refine marFlag_name_unique ?_ (List.getElem?_mem hgm') ?_
        · rw [← sameShape_names hle1.1]
          exact hnodup
        · rw [hmname]
          exact hle1.2.1 s hmf
      have hfm : f ∈ m'.Fields := by rw [← hshm.2.2.1]; exact hf
      obtain ⟨mc, md, hle3, happf, hle4⟩ := applyFields_decomp fuel m' m'.Fields ma mb happ f hfm
      obtain ⟨mm, mid, hlk, hen, hle5⟩ :=
        applyField_marshal_decomp fuel m' f mc md hcm hfmsg hfdate happf
      have hshmc : sameShape (initModels models services) mc :=
        sameShape_trans hle1.1 hle3.1
      obtain ⟨hmmMem, hmmName⟩ := lookupModel_mem hlk
      have hres : marFlag mid n := by
        refine enableMarshal_complete fuel _ mc mm mid n hnodup hshmc
          (mem_name_fields_of_shape hshmc hmmMem) hen ?_
        rw [hmmName, hfbt]
        exact hrest
      exact hle2.2.1 n (hle4.2.1 n (hle5.2.1 n hres))

theorem applyMarshalFlags_unmarshal_complete
    {models : List Model} {services : List Service} {fuel : Nat} {final : List Model}
    (hnodup : ((initModels models services).map Model.Name).Nodup)
    (hdate : ∀ s ∈ services, ∀ sm ∈ s.Methods, sm.InputType ≠ "Date" ∧ sm.OutputType ≠ "Date")
    (hrun : applyMarshalFlags fuel (initModels models services) = .ok final)
    {n : String} (hreach : ReachableU (initModels models services) services n)
    (hex : ∃ q ∈ initModels models services, q.Name = n) :
    unmFlag final n := by
  obtain ⟨s, hseed, hpath⟩ := hreach
  have hfl : flagsLe (initModels models services) final := by
    unfold applyMarshalFlags at hrun
    exact applyLoop_flagsLe fuel _ _ final hrun
  rcases Relation.ReflTransGen.cases_head hpath with heq | ⟨b, hedge, hrest⟩
  · subst heq
    by_cases hd : s = "Date"
    · obtain ⟨sv, hsv, sm, hsm, hin⟩ := hseed
      exact absurd (hin.trans hd) ((hdate sv hsv sm hsm).2)
    · obtain ⟨q, hq, hqname⟩ := hex
      obtain ⟨mw, hmw, hmwname, _⟩ := initModels_mem_name hq (by rw [hqname]; exact hd)
      have hmf : unmFlag (initModels models services) s := by
        have := initModels_unmFlag_of_seed hmw (by rw [hmwname, hqname]; exact hseed)
        rw [hmwname, hqname] at this
        exact this
      exact hfl.2.2 s hmf
  · obtain ⟨me, hme, hmeName, f, hf, hfmsg, hfdate, hfbt⟩ := hedge
    have hmeD : me.Name ≠ "Date" := by
      intro hcon
      have hdm := dateModel_mem_initModels models services
      have : me = dateModel :=
        List.inj_on_of_nodup_map hnodup hme hdm (by rw [hcon]; rfl)
      rw [this] at hf
      simp [dateModel] at hf
    obtain ⟨mw, hmw, hmwname, hmwfields⟩ := initModels_mem_name hme hmeD
    have hmf : unmFlag (initModels models services) s := by
      have := initModels_unmFlag_of_seed hmw (by rw [hmwname, hmeName]; exact hseed)
      rw [hmwname, hmeName] at this
      exact this
    obtain ⟨i, hgi⟩ := List.getElem?_of_mem hme
    have hirange : i ∈ List.range (initModels models services).length := by
      refine List.mem_range.mpr ?_
      by_contra hgt
      push_neg at hgt
      rw [List.getElem?_eq_none hgt] at hgi
      cases hgi
    unfold applyMarshalFlags at hrun
    obtain ⟨ma, mb, hle1, happ, hle2⟩ := applyLoop_decomp fuel _ _ final hrun i hirange
    obtain ⟨m', hgm', hshm'⟩ := sameShape_getElem hle1.1 hgi
    have hshm := modelShape_eq_iff hshm'
    unfold applyAt at happ
    split at happ
    · rename_i hnone
      rw [hgm'] at hnone
      cases hnone
    · rename_i m2 hm2
      rw [hgm'] at hm2
      have hm2eq : m' = m2 := Option.some.inj hm2
      rw [← hm2eq] at happ
      have hmname : m'.Name = s := by rw [← hshm.1, hmeName]
      have hcu : m'.CanUnmarshal = true := by
        refine unmFlag_name_unique ?_ (List.getElem?_mem hgm') ?_
        · rw [← sameShape_names hle1.1]
          exact hnodup
        · rw [hmname]
          exact hle1.2.2 s hmf
      have hfm : f ∈ m'.Fields := by rw [← hshm.2.2.1]; exact hf
      obtain ⟨mc, md, hle3, happf, hle4⟩ := applyFields_decomp fuel m' m'.Fields ma mb happ f hfm
      obtain ⟨ms1, mm, hle5, hlk, hen⟩ :=
        applyField_unmarshal_decomp fuel m' f mc md hcu hfmsg hfdate happf
      have hshms1 : sameShape (initModels models services) ms1 :=
        sameShape_trans (sameShape_trans hle1.1 hle3.1) hle5.1
      obtain ⟨hmmMem, hmmName⟩ := lookupModel_mem hlk
      have hres : unmFlag md n := by
        refine enableUnmarshal_complete fuel _ ms1 mm md n hnodup hshms1
          (mem_name_fields_of_shape hshms1 hmmMem) hen ?_
        rw [hmmName, hfbt]
        exact hrest
      exact hle2.2.2 n (hle4.2.2 n hres)

/-- **C1.** After generation (seeding from the service methods, registration
of the `Date` placeholder, and a completed `ApplyMarshalFlags` run), a
Model's `CanMarshal` (resp. `CanUnmarshal`) flag is true iff the model's
name is reachable in the message-reference graph from some service method's
`InputType` (resp. `OutputType`); in particular a Model unreachable from any
method has both flags false and receives no emitted `ToJSON`/`JSONTo`
conversion function.  The hypotheses are the registry invariants of the
generator: walker models start unflagged, model names are unique (the
registry is keyed by name), and no method names the synthetic `Date` type
directly. -/
theorem c1_flags_iff_reachable
    (models : List Model) (services : List Service) (fuel : Nat) (final : List Model)
    (hclean : ∀ m ∈ models, m.CanMarshal = false ∧ m.CanUnmarshal = false)
    (hnodup : ((initModels models services).map Model.Name).Nodup)
    (hdate : ∀ s ∈ services, ∀ sm ∈ s.Methods, sm.InputType ≠ "Date" ∧ sm.OutputType ≠ "Date")
    (hrun : applyMarshalFlags fuel (initModels models services) = .ok final) :
    ∀ m ∈ final,
      (m.CanMarshal = true ↔ ReachableM (initModels models services) services m.Name) ∧
      (m.CanUnmarshal = true ↔ ReachableU (initModels models services) services m.Name) ∧
      (¬ ReachableM (initModels models services) services m.Name →
       ¬ ReachableU (initModels models services) services m.Name →
       emitsMarshalFn m = false ∧ emitsUnmarshalFn m = false) := by
  intro m hm
  have hrun' : applyLoop fuel (List.range (initModels models services).length)
      (initModels models services) = .ok final := hrun
  have hgoodF : GoodState (initModels models services) services final :=
    applyLoop_sound fuel _ services _ _ final (initModels_good hclean) hrun'
  have hnodupF : (final.map Model.Name).Nodup := by
    rw [← sameShape_names hgoodF.1]
    exact hnodup
  have hex : ∃ q ∈ initModels models services, q.Name = m.Name := by
    obtain ⟨q, hq, hsq⟩ := mem_shape_of_mem hgoodF.1 hm
    exact ⟨q, hq, (modelShape_eq_iff hsq).1⟩
  have hmarIff : m.CanMarshal = true ↔
      ReachableM (initModels models services) services m.Name := by
    constructor
    · intro h
      exact hgoodF.2.1 m.Name ⟨m, hm, rfl, h⟩
    · intro h
      exact marFlag_name_unique hnodupF hm
        (applyMarshalFlags_marshal_complete hnodup hdate hrun h hex)
  have hunmIff : m.CanUnmarshal = true ↔
      ReachableU (initModels models services) services m.Name := by
    constructor
    · intro h
      exact hgoodF.2.2 m.Name ⟨m, hm, rfl, h⟩
    · intro h
      exact unmFlag_name_unique hnodupF hm
        (applyMarshalFlags_unmarshal_complete hnodup hdate hrun h hex)
  refine ⟨hmarIff, hunmIff, ?_⟩
  intro hnm hnu
  have h1 : m.CanMarshal = false := by
    cases hb : m.CanMarshal
    · rfl
    · exact absurd (hmarIff.mp hb) hnm
  have h2 : m.CanUnmarshal = false := by
    cases hb : m.CanUnmarshal
    · rfl
    · exact absurd (hunmIff.mp hb) hnu
  constructor
  · unfold emitsMarshalFn
    rw [h1]
    simp
  · unfold emitsUnmarshalFn
    rw [h2]
    simp

theorem enableMarshal_c2_diverges :
    ∀ fuel, enableMarshal fuel c2Init c2Seeded = .outOfFuel := by
  intro fuel
  induction fuel with
  | zero => rfl
  | succ k ih =>
    have hset : setMarshal c2Init c2Seeded.Name = c2Init := by decide
    simp only [enableMarshal, hset]
    show foldStep (enableMarshal k)
      [{ Name := "a", Typ := "A", JSONName := "a", JSONType := "AJSON",
         IsMessage := true, IsRepeated := false, MapType := none }] c2Init = .outOfFuel
    simp only [foldStep]
    rw [if_neg (by decide)]
    rw [show lookupModel c2Init (baseTypeOf
      { Name := "a", Typ := "A", JSONName := "a", JSONType := "AJSON",
        IsMessage := true, IsRepeated := false, MapType := none }) = some c2Seeded from by decide]
    show (match enableMarshal k c2Init c2Seeded with
          | Res.ok ms => foldStep (enableMarshal k) [] ms
          | r => r) = Res.outOfFuel
    rw [ih]

/-- **C2.** The claim asserts that `ApplyMarshalFlags` / `enableMarshal`
terminate on every registry, a self-referential message included, with
re-visits of an already-flagged model being no-ops.  The code has no
visited-set: on the registry holding the single self-referential model `A`
(seeded by a method taking and returning `A`), the propagation exhausts
every recursion budget — the source recursion never terminates. -/
theorem c2_self_reference_diverges :
    diverges (fun fuel => applyMarshalFlags fuel (initModels [c2Model] [c2Svc])) := by
  intro fuel
  show applyMarshalFlags fuel c2Init = .outOfFuel
  have hF : applyField fuel c2Seeded
      { Name := "a", Typ := "A", JSONName := "a", JSONType := "AJSON",
        IsMessage := true, IsRepeated := false, MapType := none } c2Init = .outOfFuel := by
    have hM : applyFieldMarshal fuel c2Seeded
        { Name := "a", Typ := "A", JSONName := "a", JSONType := "AJSON",
          IsMessage := true, IsRepeated := false, MapType := none } c2Init = .outOfFuel := by
      unfold applyFieldMarshal
      rw [if_pos (by decide : c2Seeded.CanMarshal = true)]
      rw [show lookupModel c2Init (baseTypeOf
        { Name := "a", Typ := "A", JSONName := "a", JSONType := "AJSON",
          IsMessage := true, IsRepeated := false, MapType := none }) = some c2Seeded from by decide]
      exact enableMarshal_c2_diverges fuel
    unfold applyField
    rw [if_neg (by decide)]
    rw [hM]
  have hAt : applyAt fuel 0 c2Init = .outOfFuel := by
    unfold applyAt
    rw [show c2Init[0]? = some c2Seeded from by decide]
    show applyFields fuel c2Seeded
      [{ Name := "a", Typ := "A", JSONName := "a", JSONType := "AJSON",
         IsMessage := true, IsRepeated := false, MapType := none }] c2Init = .outOfFuel
    simp only [applyFields]
    rw [hF]
  unfold applyMarshalFlags
  rw [show List.range c2Init.length = [0, 1] from by decide]
  simp only [applyLoop]
  rw [hAt]

/-- **C3 counterexample.** A `float` field is claimed to map to the numeric
pair; the type switch has no `TYPE_FLOAT` case, so it falls to the string
default. -/
theorem c3_counterexample : types c3FloatField "pkg" ≠ ("number", "number") := by decide

/-- **C3 (amended).** Of the numeric width classes, exactly `double`,
`fixed32`, `fixed64`, `int32` and `int64` map to the numeric target and
wire type; `float`, `sfixed32`, `sfixed64`, `uint32`, `uint64`, `sint32`
and `sint64` are absent from the switch and fall through to the string
default. -/
theorem c3_numeric_type_mapping (f : FieldDescriptorProto) (pkg : String) :
    ((f.type = .TYPE_DOUBLE ∨ f.type = .TYPE_FIXED32 ∨ f.type = .TYPE_FIXED64 ∨
      f.type = .TYPE_INT32 ∨ f.type = .TYPE_INT64) →
      types f pkg = ("number", "number")) ∧
    ((f.type = .TYPE_FLOAT ∨ f.type = .TYPE_SFIXED32 ∨ f.type = .TYPE_SFIXED64 ∨
      f.type = .TYPE_UINT32 ∨ f.type = .TYPE_UINT64 ∨ f.type = .TYPE_SINT32 ∨
      f.type = .TYPE_SINT64) →
      types f pkg = ("string", "string")) := by
  constructor
  · intro h
    rcases h with h | h | h | h | h <;> simp [types, h]
  · intro h
    rcases h with h | h | h | h | h | h | h <;> simp [types, h]

theorem c3_numeric_type_mapping_witness :
    types c3IntField "pkg" = ("number", "number") ∧
    types c3FloatField "pkg" = ("string", "string") :=
  ⟨(c3_numeric_type_mapping c3IntField "pkg").1 (Or.inr (Or.inr (Or.inr (Or.inl rfl)))),
   (c3_numeric_type_mapping c3FloatField "pkg").2 (Or.inl rfl)⟩

/-- **C5.** On the top-level `CanMarshal` path of `ApplyMarshalFlags` the
lookup of a missing base type is not checked: the nil model is passed to
`enableMarshal`, which dereferences it — a nil-pointer panic that names
nothing.  Only the `CanUnmarshal` path (and the recursive propagation steps)
abort with the `log.Fatalf` error naming the missing type and the field.
Both runs are over the single model `A` with a field `b` of unregistered
type `B`; the first seeds `CanMarshal` on `A`, the second `CanUnmarshal`. -/
theorem c5_missing_model_abort :
    applyMarshalFlags 5 (initModels [c5Model] [c5SvcIn]) = .err .nilDeref ∧
    applyMarshalFlags 5 (initModels [c5Model] [c5SvcOut]) = .err (.unknownModel "B" "b") := by
  constructor <;> decide

theorem c1_flags_iff_reachable_witness :
    applyMarshalFlags 10 (initModels w1Models [w1Svc]) = Res.ok w1Final ∧
    (w1CAfter.CanMarshal = true ↔
      ReachableM (initModels w1Models [w1Svc]) [w1Svc] w1CAfter.Name) :=
  ⟨by decide,
   ((c1_flags_iff_reachable w1Models [w1Svc] 10 w1Final (by decide) (by decide)
      (by decide) (by decide)) w1CAfter (by decide)).1⟩

/-- **C4 counterexample.** The claim says the `Date` type is never itself a
registered Model and never participates in reachability propagation, also
for repeated timestamp fields.  `CreateClientAPI` registers a synthetic
Primitive Model named `Date`, and a repeated timestamp field has
`Type = "Date[]"` — which is not caught by the `f.Type == "Date"` skip — so
propagation looks the `Date` model up and flags it. -/
theorem c4_counterexample :
    dateModel ∈ initModels [c4Model] [c4Svc] ∧
    applyMarshalFlags 10 (initModels [c4Model] [c4Svc]) =
      Res.ok [c4ModelAfter, c4DateAfter] ∧
    c4DateAfter.CanMarshal = true := by
  refine ⟨dateModel_mem_initModels _ _, by decide, rfl⟩

/-- **C4 (amended).** For message fields the mapper returns the
namespace-stripped name and its `JSON`-suffixed wire mirror, except the
well-known timestamp, which maps to (`Date`, `string`); `CreateClientAPI`
does register a synthetic Primitive `Date` placeholder Model, and while a
non-repeated timestamp field (`Type = "Date"`) is skipped by the
propagation, a repeated one (`Type = "Date[]"`) is followed and can flag the
placeholder; the `Primitive` gate still keeps every interface and conversion
function for it out of the emitted code. -/
theorem c4_timestamp_mapping :
    (∀ (f : FieldDescriptorProto) (pkg : String),
      f.type = .TYPE_MESSAGE → f.typeName = ".google.protobuf.Timestamp" →
      types f pkg = ("Date", "string")) ∧
    (∀ (f : FieldDescriptorProto) (pkg : String),
      f.type = .TYPE_MESSAGE → f.typeName ≠ ".google.protobuf.Timestamp" →
      types f pkg = (removePkg f.typeName pkg, removePkg f.typeName pkg ++ "JSON")) ∧
    (∀ (models : List Model) (services : List Service),
      dateModel ∈ initModels models services) ∧
    (∀ (fuel : Nat) (m : Model) (f : ModelField) (ms : List Model),
      f.Typ = "Date" → applyField fuel m f ms = .ok ms) ∧
    (∀ m : Model, m.Primitive = true →
      emitsPlainInterface m = false ∧ emitsMarshalFn m = false ∧
      emitsUnmarshalFn m = false) := by
  refine ⟨?_, ?_, ?_, ?_, ?_⟩
  · intro f pkg ht hn
    simp [types, ht, hn]
  · intro f pkg ht hn
    simp [types, ht, hn]
  · intro models services
    exact dateModel_mem_initModels models services
  · intro fuel m f ms hd
    unfold applyField
    rw [if_pos (Or.inr hd)]
  · intro m hp
    unfold emitsPlainInterface emitsMarshalFn emitsUnmarshalFn
    rw [hp]
    simp

theorem c4_timestamp_mapping_witness :
    types c4TsField "twirp.example" = ("Date", "string") ∧
    types c4MsgField "twirp.example" = ("Hat", "HatJSON") ∧
    applyField 3 c4Model c4DateModelField [] = .ok [] ∧
    emitsMarshalFn dateModel = false := by
  refine ⟨c4_timestamp_mapping.1 c4TsField "twirp.example" rfl rfl, ?_,
    c4_timestamp_mapping.2.2.2.1 3 c4Model c4DateModelField [] rfl,
    (c4_timestamp_mapping.2.2.2.2 dateModel rfl).2.1⟩
  have h := c4_timestamp_mapping.2.1 c4MsgField "twirp.example" rfl (by decide)
  rw [h]
  decide

/-! ### Lemmas about `camelCase` -/

theorem splitU_ne_nil : ∀ l : List Char, splitU l ≠ [] := by
  intro l
  cases l with
  | nil => simp [splitU]
  | cons c cs =>
    unfold splitU
    cases h : splitU cs with
    | nil => simp
    | cons p ps =>
      by_cases hc : c = '_' <;> simp [hc]

theorem camelPart_succ_none_iff (i : Nat) (p : List Char) :
    camelPart (i + 1) p = none ↔ p = [] := by
  unfold camelPart
  rw [if_neg (Nat.succ_ne_zero i)]
  cases p <;> simp

theorem camelPart_zero (p : List Char) :
    camelPart 0 p = some (p.map Char.toLower) := by
  unfold camelPart
  rw [if_pos rfl]

theorem camelPart_succ_some (i : Nat) (p : List Char) (hp : p ≠ []) :
    camelPart (i + 1) p = some (specCapitalize p) := by
  unfold camelPart specCapitalize
  rw [if_neg (Nat.succ_ne_zero i)]
  cases p with
  | nil => exact absurd rfl hp
  | cons c cs => rfl

theorem camelParts_succ_none_iff :
    ∀ (ps : List (List Char)) (i : Nat),
      camelParts (i + 1) ps = none ↔ ∃ p ∈ ps, p = [] := by
  intro ps
  induction ps with
  | nil => intro i; simp [camelParts]
  | cons p ps ih =>
    intro i
    unfold camelParts
    constructor
    · intro h
      cases h1 : camelPart (i + 1) p with
      | none =>
        exact ⟨p, List.mem_cons_self p ps, (camelPart_succ_none_iff i p).mp h1⟩
      | some q =>
        cases h2 : camelParts (i + 1 + 1) ps with
        | none =>
          obtain ⟨r, hr, hre⟩ := (ih (i + 1)).mp h2
          exact ⟨r, List.mem_cons_of_mem p hr, hre⟩
        | some qs =>
          rw [h1, h2] at h
          cases h
    · rintro ⟨r, hr, rfl⟩
      cases hr with
      | head =>
        rw [(camelPart_succ_none_iff i []).mpr rfl]
      | tail _ hr2 =>
        rw [(ih (i + 1)).mpr ⟨[], hr2, rfl⟩]
        cases camelPart (i + 1) p <;> rfl

theorem camelParts_succ_some :
    ∀ (ps : List (List Char)) (i : Nat), (∀ p ∈ ps, p ≠ []) →
      camelParts (i + 1) ps = some (ps.map specCapitalize) := by
  intro ps
  induction ps with
  | nil => intro i _; rfl
  | cons p ps ih =>
    intro i hne
    unfold camelParts
    rw [camelPart_succ_some i p (hne p (List.mem_cons_self p ps))]
    rw [ih (i + 1) (fun q hq => hne q (List.mem_cons_of_mem p hq))]
    rfl

theorem camelCase_none_iff (s : String) :
    camelCase s = none ↔ ∃ p ∈ (splitU s.data).tail, p = [] := by
  unfold camelCase
  rw [Option.map_eq_none']
  cases hs : splitU s.data with
  | nil => exact absurd hs (splitU_ne_nil s.data)
  | cons p ps =>
    show camelParts 0 (p :: ps) = none ↔ _
    unfold camelParts
    rw [camelPart_zero p]
    constructor
    · intro h
      cases h2 : camelParts (0 + 1) ps with
      | none => simpa using (camelParts_succ_none_iff ps 0).mp h2
      | some qs =>
        rw [h2] at h
        cases h
    · intro hex
      rw [(camelParts_succ_none_iff ps 0).mpr (by simpa using hex)]

theorem camelCase_some (s : String) (hne : ∀ p ∈ splitU s.data, p ≠ []) :
    camelCase s = some (specCamelCase s) := by
  unfold camelCase specCamelCase
  cases hs : splitU s.data with
  | nil => exact absurd hs (splitU_ne_nil s.data)
  | cons p ps =>
    show (camelParts 0 (p :: ps)).map _ = _
    unfold camelParts
    rw [camelPart_zero p]
    rw [camelParts_succ_some ps 0 (fun q hq => by
      refine hne q ?_
      rw [hs]
      exact List.mem_cons_of_mem p hq)]
    simp

/-- **C9 counterexample.** A leading underscore is claimed to make the
conversion index out of range; in fact the empty segment is the *first*
segment, which is only lowercased (`strings.ToLower("")` is safe), so
`camelCase "_foo"` returns `"Foo"` rather than panicking. -/
theorem c9_counterexample : camelCase "_foo" = some "Foo" := by decide

/-- **C9 (amended).** When every underscore-separated segment is non-empty
the conversion matches the spec formula (first segment lowercased, later
segments capitalized), and that is the field's target `Name`; the
conversion panics exactly when some *non-first* segment is empty — i.e. on
a trailing or doubled underscore, but not on a merely leading one. -/
theorem c9_camel_case_totality :
    (∀ s : String, (∀ p ∈ splitU s.data, p ≠ []) → camelCase s = some (specCamelCase s)) ∧
    (∀ s : String, camelCase s = none ↔ ∃ p ∈ (splitU s.data).tail, p = []) ∧
    (∀ (f : FieldDescriptorProto) (m : DescriptorProto) (pkg : String),
      (∀ p ∈ splitU f.name.data, p ≠ []) →
      ∃ fl, newField f m pkg = some fl ∧ fl.Name = specCamelCase f.name) := by
  refine ⟨camelCase_some, camelCase_none_iff, ?_⟩
  intro f m pkg hne
  have h := camelCase_some f.name hne
  rcases hpt : protoToTSType f pkg with ⟨ts, js⟩
  refine ⟨{ Name := specCamelCase f.name, Typ := ts, JSONName := f.name, JSONType := js,
            IsMessage := f.type = FieldType.TYPE_MESSAGE, IsRepeated := isRepeated f,
            MapType := mapType f m pkg }, ?_, rfl⟩
  unfold newField
  rw [hpt]
  simp only [h, Option.map_some']

theorem c9_camel_case_totality_witness :
    camelCase "foo_bar" = some (specCamelCase "foo_bar") :=
  c9_camel_case_totality.1 "foo_bar" (by decide)

theorem lowerFirst_data {s : String} {c : Char} {cs : List Char}
    (h : s.data = c :: cs) : (lowerFirst s).data = Char.toLower c :: cs := by
  unfold lowerFirst
  rw [h]
  rfl

/-- **C7.** For every schema service method: the generated `ServiceMethod`
appears among the built service's methods; its `Name` is the schema method
name with only its first character lowercased; its `Path` is the schema
method name verbatim; its `InputType` is the namespace-stripped input model
name and `InputArg` is that name with its first character lowercased; and
the emitted client method's request target joins the hostname-resolved
prefix `"/twirp/{package}.{ServiceName}/"` with `Path`. -/
theorem c7_service_method_projection :
    ∀ (pkg : String) (s : ServiceDescriptorProto) (md : MethodDescriptorProto),
      md ∈ s.method →
      ∀ (c : Char) (cs : List Char) (d : Char) (ds : List Char),
      md.name.data = c :: cs →
      (removePkg md.inputType pkg).data = d :: ds →
      buildMethod pkg md ∈ (buildService pkg s).Methods ∧
      (buildMethod pkg md).Name.data = Char.toLower c :: cs ∧
      (buildMethod pkg md).Path = md.name ∧
      (buildMethod pkg md).InputType = removePkg md.inputType pkg ∧
      (buildMethod pkg md).InputArg.data = Char.toLower d :: ds ∧
      requestPathOf (buildService pkg s) (buildMethod pkg md) =
        "/twirp/" ++ pkg ++ "." ++ s.name ++ "/" ++ md.name := by
  intro pkg s md hmem c cs d ds hname hinput
  refine ⟨?_, ?_, rfl, rfl, ?_, rfl⟩
  · exact List.mem_map_of_mem (buildMethod pkg) hmem
  · exact lowerFirst_data hname
  · exact lowerFirst_data hinput

theorem c7_service_method_projection_witness :
    (buildMethod "p" c7Md).Name.data = Char.toLower 'M' :: [] ∧
    requestPathOf (buildService "p" c7Svc) (buildMethod "p" c7Md) =
      "/twirp/" ++ "p" ++ "." ++ c7Svc.name ++ "/" ++ c7Md.name :=
  ⟨(c7_service_method_projection "p" c7Svc c7Md (by decide) 'M' [] 'S' []
      (by decide) (by decide)).2.1,
   (c7_service_method_projection "p" c7Svc c7Md (by decide) 'M' [] 'S' []
      (by decide) (by decide)).2.2.2.2.2⟩

/-! ### Lemmas about the walker -/

theorem buildFields_zip (m : DescriptorProto) (pkg : String) :
    ∀ (fs : List FieldDescriptorProto) (fls : List ModelField),
      buildFields m pkg fs = some fls →
      ∀ pr ∈ fs.zip fls, newField pr.1 m pkg = some pr.2 := by
  intro fs
  induction fs with
  | nil =>
    intro fls h pr hpr
    unfold buildFields at h
    cases h
    cases hpr
  | cons f fs ih =>
    intro fls h pr hpr
    unfold buildFields at h
    split at h
    · rename_i fl fls' hnf hbf
      cases h
      cases hpr with
      | head => exact hnf
      | tail _ hpr2 => exact ih fls' hbf pr hpr2
    · cases h

theorem buildFields_pair (m : DescriptorProto) (pkg : String) :
    ∀ (fs : List FieldDescriptorProto) (fls : List ModelField),
      buildFields m pkg fs = some fls →
      ∀ f ∈ fs, ∃ pr ∈ fs.zip fls, pr.1 = f := by
  intro fs
  induction fs with
  | nil => intro fls _ f hf; cases hf
  | cons g fs ih =>
    intro fls h f hf
    unfold buildFields at h
    split at h
    · rename_i fl fls' hnf hbf
      cases h
      cases hf with
      | head => exact ⟨(g, fl), List.mem_cons_self _ _, rfl⟩
      | tail _ hf2 =>
        obtain ⟨pr, hpr, hpe⟩ := ih fls' hbf f hf2
        exact ⟨pr, List.mem_cons_of_mem _ hpr, hpe⟩
    · cases h

theorem buildFields_total (m : DescriptorProto) (pkg : String) :
    ∀ (fs : List FieldDescriptorProto),
      (∀ f ∈ fs, (newField f m pkg).isSome = true) →
      ∃ fls, buildFields m pkg fs = some fls := by
  intro fs
  induction fs with
  | nil => intro _; exact ⟨[], rfl⟩
  | cons f fs ih =>
    intro hall
    obtain ⟨fl, hfl⟩ := Option.isSome_iff_exists.mp (hall f (List.mem_cons_self f fs))
    obtain ⟨fls, hfls⟩ := ih (fun g hg => hall g (List.mem_cons_of_mem f hg))
    refine ⟨fl :: fls, ?_⟩
    unfold buildFields
    rw [hfl, hfls]

theorem newField_JSONName {f : FieldDescriptorProto} {m : DescriptorProto}
    {pkg : String} {fl : ModelField} (h : newField f m pkg = some fl) :
    fl.JSONName = f.name := by
  rcases hpt : protoToTSType f pkg with ⟨ts, js⟩
  unfold newField at h
  rw [hpt] at h
  obtain ⟨nm, _, hrec⟩ := Option.map_eq_some'.mp h
  rw [← hrec]

theorem newField_isSome_of_camel {f : FieldDescriptorProto} {m : DescriptorProto}
    {pkg : String} (h : (camelCase f.name).isSome = true) :
    (newField f m pkg).isSome = true := by
  rcases hpt : protoToTSType f pkg with ⟨ts, js⟩
  unfold newField
  rw [hpt]
  simpa using h

theorem mkModel_mapEntry_eq (m : DescriptorProto) (pre pkg : String)
    (fls : List ModelField) (k v : FieldDescriptorProto × ModelField)
    (hbf : buildFields m pkg m.field = some fls) (hme : m.mapEntry = true)
    (hk : ((m.field.zip fls).filter (fun p => p.1.name == "key")).getLast? = some k)
    (hv : ((m.field.zip fls).filter (fun p => p.1.name == "value")).getLast? = some v) :
    mkModel m pre pkg = some
      { Name := removeDots pre ++ m.name, Primitive := false, Fields := fls,
        Map := some { Name := trimSuffixStr (removeDots pre ++ m.name) "Entry",
                      KeyField := k.2, ValueField := v.2 },
        CanMarshal := false, CanUnmarshal := false } := by
  unfold mkModel
  rw [hbf]
  simp only [hme, if_true, hk, hv]
  rfl

/-- **C8.** A nested definition carrying the map-entry marker whose fields
are literally named `key` and `value` yields a Model with non-nil
`MapDetails` holding those fields, and such a Model is never rendered as a
plain interface (the template's plain-interface block is gated on
`not .Map`). -/
theorem c8_map_entry_details :
    ∀ (m : DescriptorProto) (pre pkg : String),
      m.mapEntry = true →
      (∃ f ∈ m.field, f.name = "key") →
      (∃ f ∈ m.field, f.name = "value") →
      (∀ f ∈ m.field, f.name = "key" ∨ f.name = "value") →
      ∃ model, mkModel m pre pkg = some model ∧
        (model.Map.map (fun d => (d.KeyField.JSONName, d.ValueField.JSONName)))
          = some ("key", "value") ∧
        emitsPlainInterface model = false := by
  intro m pre pkg hme hkey hval hnames
  have hcSome : ∀ f ∈ m.field, (newField f m pkg).isSome = true := by
    intro f hf
    refine newField_isSome_of_camel ?_
    rcases hnames f hf with h | h <;> rw [h] <;> decide
  obtain ⟨fls, hbf⟩ := buildFields_total m pkg m.field hcSome
  obtain ⟨fk, hfk, hfkname⟩ := hkey
  obtain ⟨prk, hprk, hprk1⟩ := buildFields_pair m pkg m.field fls hbf fk hfk
  have hprkF : prk ∈ (m.field.zip fls).filter (fun p => p.1.name == "key") := by
    refine List.mem_filter.mpr ⟨hprk, ?_⟩
    rw [hprk1]
    simp [hfkname]
  obtain ⟨k, hk⟩ := Option.isSome_iff_exists.mp
    (List.getLast?_isSome.mpr (List.ne_nil_of_mem hprkF))
  obtain ⟨fv, hfv, hfvname⟩ := hval
  obtain ⟨prv, hprv, hprv1⟩ := buildFields_pair m pkg m.field fls hbf fv hfv
  have hprvF : prv ∈ (m.field.zip fls).filter (fun p => p.1.name == "value") := by
    refine List.mem_filter.mpr ⟨hprv, ?_⟩
    rw [hprv1]
    simp [hfvname]
  obtain ⟨v, hv⟩ := Option.isSome_iff_exists.mp
    (List.getLast?_isSome.mpr (List.ne_nil_of_mem hprvF))
  have hkfil := List.mem_filter.mp (List.mem_of_mem_getLast? hk)
  have hvfil := List.mem_filter.mp (List.mem_of_mem_getLast? hv)
  have hkJSON : k.2.JSONName = "key" := by
    rw [newField_JSONName (buildFields_zip m pkg m.field fls hbf k hkfil.1)]
    exact eq_of_beq hkfil.2
  have hvJSON : v.2.JSONName = "value" := by
    rw [newField_JSONName (buildFields_zip m pkg m.field fls hbf v hvfil.1)]
    exact eq_of_beq hvfil.2
  refine ⟨_, mkModel_mapEntry_eq m pre pkg fls k v hbf hme hk hv, ?_, ?_⟩
  · simp [hkJSON, hvJSON]
  · simp [emitsPlainInterface]

theorem c8_map_entry_details_witness :
    (mkModel c8Entry ".Owner" "pkg").isSome = true ∧
    ((mkModel c8Entry ".Owner" "pkg").map
      (fun model => model.Map.map (fun d => (d.KeyField.JSONName, d.ValueField.JSONName))))
      = some (some ("key", "value")) := by
  obtain ⟨model, h1, h2, h3⟩ := c8_map_entry_details c8Entry ".Owner" "pkg" rfl
    ⟨wKeyField, by decide, rfl⟩ ⟨wValField, by decide, rfl⟩ (by decide)
  rw [h1]
  exact ⟨rfl, by rw [Option.map_some', h2]⟩

/-- **C10.** For a map-entry definition the source unconditionally
dereferences the pointers to the `key`- and `value`-named fields: lacking
either one is a crash (`none`), not a reported error; when construction
succeeds, `MapDetails.Name` is the flattened model name with a trailing
`Entry` suffix removed. -/
theorem c10_map_entry_preconditions :
    ∀ (m : DescriptorProto) (pre pkg : String),
      m.mapEntry = true →
      ((m.field.filter (fun f => f.name == "key") = [] ∨
        m.field.filter (fun f => f.name == "value") = []) →
        mkModel m pre pkg = none) ∧
      (∀ model, mkModel m pre pkg = some model →
        model.Map.map MapDetails.Name =
          some (trimSuffixStr (removeDots pre ++ m.name) "Entry")) := by
  intro m pre pkg hme
  constructor
  · intro hnil
    cases hbf : buildFields m pkg m.field with
    | none => unfold mkModel; rw [hbf]
    | some fls =>
      have hpz : ∀ nm : String, m.field.filter (fun f => f.name == nm) = [] →
          (m.field.zip fls).filter (fun p => p.1.name == nm) = [] := by
        intro nm hn
        refine List.filter_eq_nil_iff.mpr ?_
        rintro ⟨a, b⟩ hpr hb
        have ha := (List.of_mem_zip hpr).1
        have hmem : a ∈ m.field.filter (fun f => f.name == nm) :=
          List.mem_filter.mpr ⟨ha, hb⟩
        rw [hn] at hmem
        cases hmem
      unfold mkModel
      rw [hbf]
      simp only [hme, if_true]
      rcases hnil with hn | hn
      · rw [hpz "key" hn]
        rfl
      · rw [hpz "value" hn]
        cases ((m.field.zip fls).filter (fun p => p.1.name == "key")).getLast? <;> rfl
  · intro model h
    cases hbf : buildFields m pkg m.field with
    | none =>
      unfold mkModel at h
      rw [hbf] at h
      cases h
    | some fls =>
      unfold mkModel at h
      rw [hbf] at h
      simp only [hme, if_true] at h
      split at h
      · rename_i k v hkl hvl
        cases h
        rfl
      · cases h

theorem c10_map_entry_preconditions_witness :
    mkModel c10BadEntry ".Owner" "pkg" = none ∧
    (mkModel c8Entry ".Owner" "pkg").map (fun model => model.Map.map MapDetails.Name)
      = some (some (trimSuffixStr (removeDots ".Owner" ++ "TagsEntry") "Entry")) := by
  constructor
  · exact (c10_map_entry_preconditions c10BadEntry ".Owner" "pkg" rfl).1 (Or.inl (by decide))
  · cases hmk : mkModel c8Entry ".Owner" "pkg" with
    | none => exact absurd hmk (by decide)
    | some model =>
      rw [Option.map_some']
      rw [(c10_map_entry_preconditions c8Entry ".Owner" "pkg" rfl).2 model hmk]
      rfl

/-! ### Lemmas for the walker's flattened names (C6) -/

theorem removeDots_append (a b : String) :
    removeDots (a ++ b) = removeDots a ++ removeDots b := by
  refine String.ext ?_
  show ((a ++ b).data.filter _) = (a.data.filter _) ++ (b.data.filter _)
  rw [show (a ++ b).data = a.data ++ b.data from rfl, List.filter_append]

theorem removeDots_dot_cons (e : String) : removeDots ("." ++ e) = removeDots e := by
  rw [removeDots_append]
  rfl

theorem strConcat_append (l1 l2 : List String) :
    strConcat (l1 ++ l2) = strConcat l1 ++ strConcat l2 := by
  induction l1 with
  | nil => rfl
  | cons a l1 ih =>
    show a ++ strConcat (l1 ++ l2) = (a ++ strConcat l1) ++ strConcat l2
    rw [ih, String.append_assoc]

theorem dottedPre_snoc (encl : List String) (x : String) :
    dottedPre (encl ++ [x]) = dottedPre encl ++ "." ++ x := by
  unfold dottedPre
  rw [List.map_append, strConcat_append]
  have h1 : strConcat (List.map (fun e => "." ++ e) [x]) = "." ++ x := by
    show ("." ++ x) ++ "" = "." ++ x
    exact String.append_empty _
  rw [h1, ← String.append_assoc]

theorem removeDots_dottedPre (encl : List String) :
    removeDots (dottedPre encl) = strConcat (encl.map removeDots) := by
  induction encl with
  | nil => rfl
  | cons e es ih =>
    show removeDots (("." ++ e) ++ dottedPre es) = removeDots e ++ strConcat (es.map removeDots)
    rw [removeDots_append, removeDots_dot_cons, ih]

theorem mkModel_name {m : DescriptorProto} {pre pkg : String} {model : Model}
    (h : mkModel m pre pkg = some model) : model.Name = removeDots pre ++ m.name := by
  unfold mkModel at h
  split at h
  · cases h
  · rename_i fields hbf
    split at h
    · split at h
      · rename_i k v hkl hvl
        cases h
        rfl
      · cases h
    · cases h
      rfl

theorem addMessageType_names_aux :
    ∀ k : Nat,
      (∀ m : DescriptorProto, sizeOf m ≤ k →
        ∀ (encl : List String) (pkg : String) (models out : List Model),
        addMessageType m (dottedPre encl) pkg models = some out →
        out.map Model.Name = models.map Model.Name ++ specFlattenedNames encl m) ∧
      (∀ l : List DescriptorProto, sizeOf l ≤ k →
        ∀ (encl : List String) (pkg : String) (models out : List Model),
        addMessageTypeList l (dottedPre encl) pkg models = some out →
        out.map Model.Name = models.map Model.Name ++ specFlattenedNamesList encl l) := by
  intro k
  induction k using Nat.strong_induction_on with
  | _ k ih =>
    constructor
    · intro m hsz encl pkg models out h
      cases m with
      | mk nm flds nested me =>
        unfold addMessageType at h
        split at h
        · cases h
        · rename_i model hmk
          rw [← dottedPre_snoc encl nm] at h
          have hlt : sizeOf nested < sizeOf (DescriptorProto.mk nm flds nested me) := by
            simp
            omega
          have hlist := (ih (sizeOf nested) (lt_of_lt_of_le hlt hsz)).2
            nested (le_refl _) (encl ++ [nm]) pkg (models ++ [model]) out h
          rw [hlist, List.map_append]
          have hname := mkModel_name hmk
          rw [removeDots_dottedPre] at hname
          rw [List.append_assoc]
          congr 1
          show [model.Name] ++ _ = _
          rw [specFlattenedNames, hname]
          rfl
    · intro l hsz encl pkg models out h
      cases l with
      | nil =>
        unfold addMessageTypeList at h
        cases h
        rw [specFlattenedNamesList]
        simp
      | cons n ns =>
        unfold addMessageTypeList at h
        split at h
        · rename_i ms hadd
          have hlt1 : sizeOf n < sizeOf (n :: ns) := by
            simp
            omega
          have hlt2 : sizeOf ns < sizeOf (n :: ns) := by
            simp
          have h1 := (ih (sizeOf n) (lt_of_lt_of_le hlt1 hsz)).1
            n (le_refl _) encl pkg models ms hadd
          have h2 := (ih (sizeOf ns) (lt_of_lt_of_le hlt2 hsz)).2
            ns (le_refl _) encl pkg ms out h
          rw [h2, h1, List.append_assoc]
          rw [specFlattenedNamesList]
        · cases h

/-- **C6.** For every (nested) message definition, walking it from the
top-level empty namespace registers exactly the models whose names are the
concatenation of all enclosing type names with dots removed followed by the
type's own name, appended to the registry in pre-order: each parent before
its children, the children in declaration order. -/
theorem c6_flattened_preorder_names :
    ∀ (m : DescriptorProto) (pkg : String) (models out : List Model),
      addMessageType m "" pkg models = some out →
      out.map Model.Name = models.map Model.Name ++ specFlattenedNames [] m := by
  intro m pkg models out h
  exact (addMessageType_names_aux (sizeOf m)).1 m (le_refl _) [] pkg models out h

theorem c6_flattened_preorder_names_witness :
    ((addMessageType c6Outer "" "pkg" []).map (fun ms => ms.map Model.Name))
      = some (List.map Model.Name [] ++ specFlattenedNames [] c6Outer) := by
  cases hadd : addMessageType c6Outer "" "pkg" [] with
  | none => exact absurd hadd (by decide)
  | some out =>
    rw [Option.map_some']
    rw [c6_flattened_preorder_names c6Outer "pkg" [] out hadd]
